import Mathlib

/-!
# go-trgm: word similarity over padded character trigrams

A shallow embedding of `src/main.go` and a verification development over it.

Modelling conventions.

* A Go `string` is its sequence of bytes, `List Nat` (every theorem quantified
  over strings holds for all lists, in particular for lists of bytes).
* Go `int` is `Int`: every integer of this program is a slice index, a slice
  length or a count bounded by one, so the 64-bit arithmetic cannot overflow.
* A Go slice is a `List`; an index expression that is out of range makes the
  Go program panic, which the model renders as `none` in the `Option` monad.
* The `float64` values of this program are quotients of two counts, compared
  with each other and with the constant `0.6`; they are modelled by the exact
  rational value of the quotient (`ℚ`). Rounding is monotone and two different
  quotients of counts below `2^26` round to different `float64` values, so
  every comparison has the same outcome on both sides.
-/

namespace GoTrgm

/-- A Go string, as its bytes. -/
abbrev GoString := List Nat

/-- Go constant `wordSimilarityThreshold = 0.6`. -/
def wordSimilarityThreshold : ℚ := 6 / 10

/-- Go `type posTrgm struct { trg string; index int }`. -/
structure posTrgm where
  trg : GoString
  index : Int
deriving DecidableEq, Repr

/-- Slice read `xs[i]` with a Go `int` index: `none` is the run-time panic. -/
def idx? {α : Type} (xs : List α) (i : Int) : Option α :=
  if 0 ≤ i then xs[i.toNat]? else none

/-- Slice write `xs[i] = v` with a Go `int` index: `none` is the run-time panic. -/
def set? {α : Type} (xs : List α) (i : Int) (v : α) : Option (List α) :=
  if 0 ≤ i ∧ i.toNat < xs.length then some (xs.set i.toNat v) else none

/-- Go `cmp.Compare` on `int`. -/
def cmpInt (a b : Int) : Int :=
  if a < b then -1 else if b < a then 1 else 0

/-- Go `cmp.Compare` on `string`: lexicographic comparison of the bytes. -/
def cmpString : GoString → GoString → Int
  | [], [] => 0
  | [], _ :: _ => -1
  | _ :: _, [] => 1
  | a :: s, b :: t => if a < b then -1 else if b < a then 1 else cmpString s t

/-- Go `strings.ToLower` on one byte of an ASCII string. -/
def toLowerByte (b : Nat) : Nat :=
  if 65 ≤ b ∧ b ≤ 90 then b + 32 else b

/-- Go `strings.ToLower`, on ASCII input (where it maps `A`..`Z` to `a`..`z`
bytewise and leaves every other byte alone). -/
def toLower (s : GoString) : GoString :=
  s.map toLowerByte

/-- Go `strings.Split(s, " ")`: the maximal space-free pieces of `s`, in order;
an input without a space (the empty string included) gives one piece. -/
def splitSpace : GoString → List GoString
  | [] => [[]]
  | c :: cs =>
    if c = 32 then [] :: splitSpace cs
    else
      match splitSpace cs with
      | [] => [[c]]
      | w :: ws => (c :: w) :: ws

/-- Go `makeTrigrams`: every 3-byte window `s[i:i+3]`, `i = 0 .. len(s)-3`. -/
def makeTrigrams (s : GoString) : List GoString :=
  if s.length < 3 then []
  else (List.range (s.length - 3 + 1)).map (fun i => (s.drop i).take 3)

/-- Go `generateTrgmOnly`. -/
def generateTrgmOnly (s : GoString) : List GoString :=
  if s.length = 0 then []
  else
    let sSplit := (splitSpace (toLower s)).map (fun w => [32, 32] ++ w ++ [32, 32])
    sSplit.foldl (fun res w => res ++ makeTrigrams w) []

/-- Go `makePositionalTrgm`. -/
def makePositionalTrgm (trgm1 trgm2 : List GoString) : List posTrgm :=
  trgm1.map (fun t => ⟨t, -1⟩) ++ trgm2.enum.map (fun p => ⟨p.2, (p.1 : Int)⟩)

/-- Go `compPtrgm`. -/
def compPtrgm (trgm1 trgm2 : posTrgm) : Int :=
  let r := cmpString trgm1.trg trgm2.trg
  if r ≠ 0 then r else cmpInt trgm1.index trgm2.index

/-- The order `slices.SortStableFunc(_, compPtrgm)` sorts by. -/
def ptrgmLE (a b : posTrgm) : Prop := compPtrgm a b ≤ 0

instance : DecidableRel ptrgmLE := fun a b => by unfold ptrgmLE; infer_instance

/-- Go `slices.SortStableFunc(ptrg, compPtrgm)`: a stable sort, here the stable
insertion sort. -/
def sortStable (ptrg : List posTrgm) : List posTrgm :=
  ptrg.insertionSort ptrgmLE

/-- Go `calcSml`. (In `ℚ` a division by zero gives 0; the scanner calls
`calcSml` with a positive denominator on every well-formed input.) -/
def calcSml (count len1 len2 : Int) : ℚ :=
  (count : ℚ) / ((len1 + len2 - count : Int) : ℚ)

/-- The variables of the sort-and-group loop of `calcWordSimilarity`
(lines 25-50). -/
structure MergeState where
  trg2indexes : List Int
  found : List Bool
  ulen1 : Int
  j : Int
deriving DecidableEq, Repr

/-- Lines 32-40: when the trigram value changes from the previous sorted
entry, close the group `j` (counting it in `ulen1` when it is marked) and open
the next one. -/
def groupBoundary (ptrg : List posTrgm) (st : MergeState) (i : Nat) : Option MergeState :=
  if 0 < i then
    ptrg[i - 1]?.bind fun a =>
      ptrg[i]?.bind fun b =>
        if cmpString a.trg b.trg ≠ 0 then
          (idx? st.found st.j).bind fun f =>
            some { st with ulen1 := if f = true then st.ulen1 + 1 else st.ulen1, j := st.j + 1 }
        else some st
  else some st

/-- Lines 42-46: record the identity `j` for an entry of the second string, mark
it for an entry of the first string. -/
def assignEntry (ptrg : List posTrgm) (st : MergeState) (i : Nat) : Option MergeState :=
  ptrg[i]?.bind fun p =>
    if 0 ≤ p.index then
      (set? st.trg2indexes p.index st.j).bind fun t => some { st with trg2indexes := t }
    else
      (set? st.found st.j true).bind fun f => some { st with found := f }

/-- One iteration (loop counter `i`) of the sort-and-group loop, lines 32-46. -/
def mergeStep (ptrg : List posTrgm) (st : MergeState) (i : Nat) : Option MergeState :=
  (groupBoundary ptrg st i).bind fun st1 => assignEntry ptrg st1 i

/-- Lines 25-50 of `calcWordSimilarity`: allocate `trg2indexes` and `found`,
run the loop for `i = 0 .. len(trg1)-1` over the sorted `ptrg`, then close the
last group. -/
def mergeLoop (ptrg : List posTrgm) (len1 len2 : Nat) : Option MergeState := do
  let st0 : MergeState :=
    { trg2indexes := List.replicate len2 0, found := List.replicate len1 false,
      ulen1 := 0, j := 0 }
  let st ← (List.range len1).foldlM (mergeStep ptrg) st0
  let f ← idx? st.found st.j
  some { st with ulen1 := if f then st.ulen1 + 1 else st.ulen1 }

/-- The variables of the left-shrink loop of `iterateWordSimilarity`
(lines 158-178). -/
structure ShrinkState where
  tmpLower : Int
  tmpCount : Int
  tmpUlen2 : Int
  smlrCur : ℚ
  ulen2 : Int
  lower : Int
  count : Int
deriving DecidableEq

/-- Lines 159-165: compute `smlrTmp` and, when it exceeds `smlrCur`, commit the
tentative lower bound. -/
def shrinkCommit (ulen1 : Int) (s : ShrinkState) : ShrinkState :=
  if s.smlrCur < calcSml s.tmpCount ulen1 s.tmpUlen2 then
    { s with smlrCur := calcSml s.tmpCount ulen1 s.tmpUlen2, ulen2 := s.tmpUlen2,
             lower := s.tmpLower, count := s.tmpCount }
  else s

/-- Lines 170-177 and the `tmpLower++` of the loop header: drop the trigram at
`tmpLower` from the tentative window. -/
def shrinkDrop (trg2indexes : List Int) (found : List Bool) (lastPos : List Int)
    (s : ShrinkState) : Option ShrinkState := do
  let tmpTrgindex ← idx? trg2indexes s.tmpLower
  let lp ← idx? lastPos tmpTrgindex
  if lp = s.tmpLower then do
    let f ← idx? found tmpTrgindex
    some { s with tmpUlen2 := s.tmpUlen2 - 1,
                  tmpCount := if f then s.tmpCount - 1 else s.tmpCount,
                  tmpLower := s.tmpLower + 1 }
  else some { s with tmpLower := s.tmpLower + 1 }

/-- The left-shrink loop, lines 158-178; `n` is the number of iterations the
`for tmpLower := lower; tmpLower < upper; tmpLower++` header still allows
(`upper - tmpLower`). With `checkOnly = false` the break of line 166 is
removed. -/
def shrinkLoop (checkOnly : Bool) (trg2indexes : List Int) (found : List Bool)
    (lastPos : List Int) (ulen1 : Int) : Nat → ShrinkState → Option ShrinkState
  | 0, s => some s
  | n + 1, s =>
    if checkOnly = true ∧ wordSimilarityThreshold ≤ (shrinkCommit ulen1 s).smlrCur then
      some (shrinkCommit ulen1 s)
    else
      (shrinkDrop trg2indexes found lastPos (shrinkCommit ulen1 s)).bind
        (shrinkLoop checkOnly trg2indexes found lastPos ulen1 n)

/-- Lines 187-190: one iteration of the invalidation loop at `tmpLower`. -/
def invalidateStep (trg2indexes : List Int) (tmpLower : Int) (lastPos : List Int) :
    Option (List Int) := do
  let tmpTrgindex ← idx? trg2indexes tmpLower
  let lp ← idx? lastPos tmpTrgindex
  if lp = tmpLower then set? lastPos tmpTrgindex (-1) else some lastPos

/-- The invalidation loop, lines 186-191; `n` is the number of iterations left
(`lower - tmpLower`). -/
def invalidateLoop (trg2indexes : List Int) : Nat → Int → List Int → Option (List Int)
  | 0, _, lastPos => some lastPos
  | n + 1, tmpLower, lastPos =>
    (invalidateStep trg2indexes tmpLower lastPos).bind
      (invalidateLoop trg2indexes n (tmpLower + 1))

/-- The variables of the scanning loop of `iterateWordSimilarity`. -/
structure ScanState where
  ulen2 : Int
  count : Int
  upper : Int
  smlrMax : ℚ
  lower : Int
  lastPos : List Int
deriving DecidableEq

/-- Lines 137-140, the body of `if lastPos[trgIndex] < 0`: the identity is new
to the window. -/
def countNew (found : List Bool) (trgIndex : Int) (st : ScanState) : Option ScanState :=
  (idx? found trgIndex).bind fun f =>
    some { st with ulen2 := st.ulen2 + 1, count := if f = true then st.count + 1 else st.count }

/-- Lines 136-142, the body of `if lower >= 0 || found[trgIndex]`: count the
identity when it is new to the window and record its last position. -/
def touch (found : List Bool) (trgIndex i : Int) (st : ScanState) : Option ScanState :=
  (idx? st.lastPos trgIndex).bind fun lp =>
    (if lp < 0 then countNew found trgIndex st else some st).bind fun st1 =>
      (set? st1.lastPos trgIndex i).bind fun l => some { st1 with lastPos := l }

/-- Lines 135-143: `if lower >= 0 || found[trgIndex] { ... }`; the right operand
of `||` is evaluated only when the left one is false. -/
def scanUpdate (found : List Bool) (trgIndex i : Int) (st : ScanState) : Option ScanState :=
  if 0 ≤ st.lower then touch found trgIndex i st
  else
    (idx? found trgIndex).bind fun f =>
      if f = true then touch found trgIndex i st else some st

/-- Lines 146-150: the current position becomes the upper bound, and the lower
bound too when none is set. -/
def openWindow (i : Int) (st : ScanState) : ScanState :=
  if st.lower = -1 then { st with upper := i, lower := i, ulen2 := 1 }
  else { st with upper := i }

/-- Lines 152-156: the variables of the shrink loop at its entry. -/
def shrinkInit (ulen1 : Int) (st : ScanState) : ShrinkState :=
  { tmpLower := st.lower, tmpCount := st.count, tmpUlen2 := st.ulen2,
    smlrCur := calcSml st.count ulen1 st.ulen2, ulen2 := st.ulen2, lower := st.lower,
    count := st.count }

/-- Lines 186-191 and the end of the iteration: invalidate the positions that
left the window and carry the variables over to the next iteration. -/
def closeIteration (trg2indexes : List Int) (st : ScanState) (sh : ShrinkState) :
    Option ScanState :=
  (invalidateLoop trg2indexes (sh.lower - st.lower).toNat st.lower st.lastPos).bind fun lastPos =>
    some { ulen2 := sh.ulen2, count := sh.count, upper := st.upper,
           smlrMax := max st.smlrMax sh.smlrCur, lower := sh.lower, lastPos := lastPos }

/-- Lines 145-192, the body of `if found[trgIndex]`, on the state `st` after
`openWindow`: run the shrink loop, update `smlrMax`, and either stop the scan
(`Sum.inl`, the break of line 182) or go on with the next iteration
(`Sum.inr`). -/
def matchedStep (checkOnly : Bool) (trg2indexes : List Int) (found : List Bool) (ulen1 : Int)
    (st : ScanState) : Option (ℚ ⊕ ScanState) :=
  (shrinkLoop checkOnly trg2indexes found st.lastPos ulen1 (st.upper - st.lower).toNat
      (shrinkInit ulen1 st)).bind fun sh =>
    if checkOnly = true ∧ wordSimilarityThreshold < max st.smlrMax sh.smlrCur then
      some (Sum.inl (max st.smlrMax sh.smlrCur))
    else (closeIteration trg2indexes st sh).map Sum.inr

/-- One iteration of the scanning loop, lines 133-192, at position `i`. -/
def scanStep (checkOnly : Bool) (trg2indexes : List Int) (found : List Bool) (ulen1 : Int)
    (i : Int) (st : ScanState) : Option (ℚ ⊕ ScanState) :=
  (idx? trg2indexes i).bind fun trgIndex =>
    (scanUpdate found trgIndex i st).bind fun st1 =>
      (idx? found trgIndex).bind fun f =>
        if f = true then matchedStep checkOnly trg2indexes found ulen1 (openWindow i st1)
        else some (Sum.inr st1)

/-- The scanning loop of `iterateWordSimilarity`, lines 132-193; `n` is the
number of iterations left (`len2 - i`). The result is the final `smlrMax`.
With `checkOnly = false` the two threshold breaks (lines 166 and 182) are
removed. -/
def scanLoop (checkOnly : Bool) (trg2indexes : List Int) (found : List Bool) (ulen1 : Int) :
    Nat → Int → ScanState → Option ℚ
  | 0, _, st => some st.smlrMax
  | n + 1, i, st =>
    (scanStep checkOnly trg2indexes found ulen1 i st).bind fun r =>
      match r with
      | Sum.inl smlrMax => some smlrMax
      | Sum.inr st1 => scanLoop checkOnly trg2indexes found ulen1 n (i + 1) st1

/-- The body of `iterateWordSimilarity` with the two threshold short-circuits
guarded by `checkOnly`. -/
def scan (checkOnly : Bool) (trg2indexes : List Int) (found : List Bool)
    (ulen1 : Int) (len1 len2 : Nat) : Option ℚ :=
  scanLoop checkOnly trg2indexes found ulen1 len2 0
    { ulen2 := 0, count := 0, upper := -1, smlrMax := 0, lower := -1,
      lastPos := List.replicate len1 (-1) }

/-- Go `iterateWordSimilarity` (both threshold breaks present, as in the source). -/
def iterateWordSimilarity (trg2indexes : List Int) (found : List Bool)
    (ulen1 : Int) (len1 len2 : Nat) : Option ℚ :=
  scan true trg2indexes found ulen1 len1 len2

/-- The exhaustive variant of `iterateWordSimilarity`: the same code with the
`smlrCur >= threshold` break of the shrink loop and the `smlrMax > threshold`
break of the outer loop removed. -/
def iterateWordSimilarityExhaustive (trg2indexes : List Int) (found : List Bool)
    (ulen1 : Int) (len1 len2 : Nat) : Option ℚ :=
  scan false trg2indexes found ulen1 len1 len2

/-- Lines 22-50 of `calcWordSimilarity` on trigram sequences: build and sort
`ptrg`, then run the sort-and-group loop. -/
def mergeTrgm (trg1 trg2 : List GoString) : Option MergeState :=
  mergeLoop (sortStable (makePositionalTrgm trg1 trg2)) trg1.length trg2.length

/-- Go `calcWordSimilarity`. -/
def calcWordSimilarity (s1 s2 : GoString) : Option ℚ := do
  let trg1 := generateTrgmOnly s1
  let trg2 := generateTrgmOnly s2
  let m ← mergeTrgm trg1 trg2
  iterateWordSimilarity m.trg2indexes m.found m.ulen1 trg1.length trg2.length

/-- The bytes of an ASCII string literal. -/
def str (s : String) : GoString := s.toList.map Char.toNat

/-! ## The reference notions the specification states the scanner against -/

/-- `found[k]` for an identity `k`, `false` outside the slice. -/
def isFound (found : List Bool) (k : Int) : Bool :=
  (idx? found k).getD false

/-- The distinct identities occurring at the positions `lower .. upper` of
`trg2indexes`. -/
def spanIds (trg2indexes : List Int) (lower upper : Nat) : List Int :=
  ((trg2indexes.drop lower).take (upper + 1 - lower)).dedup

/-- The similarity of the span `[lower, upper]`: `count / (ulen1 + ulen2 - count)`
with `ulen2` the number of distinct identities of the span and `count` the
number of those that are matched. -/
def spanSml (trg2indexes : List Int) (found : List Bool) (ulen1 : Int) (lower upper : Nat) : ℚ :=
  calcSml (((spanIds trg2indexes lower upper).filter (isFound found)).length) ulen1
    ((spanIds trg2indexes lower upper).length)

/-- The spans `[lower, upper]` of the positions `0 .. len2-1` that end at a
matched position. -/
def matchedSpans (trg2indexes : List Int) (found : List Bool) : List (Nat × Nat) :=
  (List.range trg2indexes.length).flatMap (fun upper =>
    if isFound found (trg2indexes.getD upper 0) then
      (List.range (upper + 1)).map (fun lower => (lower, upper))
    else [])

/-- The maximum of `spanSml` over all spans that end at a matched position,
and `0` when there is no such span. -/
def maxSpanSml (trg2indexes : List Int) (found : List Bool) (ulen1 : Int) : ℚ :=
  ((matchedSpans trg2indexes found).map
    (fun p => spanSml trg2indexes found ulen1 p.1 p.2)).foldr max 0

/-- A well-formed input of the scanner: `len(trg2indexes) = len2`,
`len(found) = len1`, every `trg2indexes[i]` is an index of `found`, and `ulen1`
is the number of `true` entries of `found`. -/
def WellFormed (trg2indexes : List Int) (found : List Bool) (ulen1 : Int) (len1 len2 : Nat) : Prop :=
  trg2indexes.length = len2 ∧ found.length = len1 ∧
    (∀ k ∈ trg2indexes, 0 ≤ k ∧ k < (len1 : Int)) ∧ ulen1 = ((found.count true : Nat) : Int)

instance (trg2indexes : List Int) (found : List Bool) (ulen1 : Int) (len1 len2 : Nat) :
    Decidable (WellFormed trg2indexes found ulen1 len1 len2) := by
  unfold WellFormed; infer_instance

/-! ## Invariants used in the proofs -/

/-- The invariant of the sort-and-group loop after `i` iterations. -/
structure MergeInv (len1 len2 i : Nat) (st : MergeState) (jn : Nat) : Prop where
  hj : st.j = (jn : Int)
  hji : jn = 0 ∨ jn + 1 ≤ i
  hlenT : st.trg2indexes.length = len2
  hlenF : st.found.length = len1
  hvals : ∀ v ∈ st.trg2indexes, 0 ≤ v ∧ v ≤ (jn : Int)
  hcount : st.ulen1 = (((st.found.take jn).count true : Nat) : Int)
  hrest : ∀ k, jn < k → st.found.getD k false = false

/-- What a scan step hands on: the value the scan stops with, or the `smlrMax`
it continues with. -/
def stepMax : ℚ ⊕ ScanState → ℚ
  | Sum.inl r => r
  | Sum.inr st => st.smlrMax

/-- The identities at the positions `lo ≤ p < hi` of `trg2indexes`. -/
def winIds (t : List Int) (lo hi : Nat) : Finset Int :=
  ((t.drop lo).take (hi - lo)).toFinset

/-- The number of distinct identities at the positions `lo ≤ p < hi`. -/
def winCard (t : List Int) (lo hi : Nat) : Int :=
  ((winIds t lo hi).card : Int)

/-- The number of distinct matched identities at the positions `lo ≤ p < hi`. -/
def winCount (t : List Int) (f : List Bool) (lo hi : Nat) : Int :=
  (((winIds t lo hi).filter (fun k => isFound f k = true)).card : Int)

/-- The slice `lastPos` describes the window `lo ≤ p < hi`: an identity that
does not occur in the window has `-1`, one that occurs has its last position
in the window. -/
def LastPosOK (t : List Int) (len1 : Nat) (lastPos : List Int) (lo hi : Nat) : Prop :=
  lastPos.length = len1 ∧ ∀ k : Nat, k < len1 →
    (lastPos[k]? = some (-1) ∧ (k : Int) ∉ winIds t lo hi) ∨
    (∃ p : Nat, lastPos[k]? = some (p : Int) ∧ lo ≤ p ∧ p < hi ∧ t[p]? = some (k : Int) ∧
      ∀ q, p < q → q < hi → t[q]? ≠ some (k : Int))

/-- Every entry of `trg2indexes` is an index below `len1`. -/
def IdsOK (t : List Int) (len1 : Nat) : Prop :=
  ∀ p, p < t.length → ∃ k : Nat, k < len1 ∧ t[p]? = some (k : Int)

/-- What the shrink loop keeps true of its committed lower bound `l`, for the
window that ends at position `i`; `c0` is `smlrCur` at the entry of the loop. -/
structure ShrinkOK (t : List Int) (f : List Bool) (ulen1 : Int) (lo i : Nat) (c0 : ℚ)
    (s : ShrinkState) (l : Nat) : Prop where
  hlower : s.lower = (l : Int)
  hlo : lo ≤ l
  hli : l ≤ i
  hulen2 : s.ulen2 = winCard t l (i + 1)
  hcount : s.count = winCount t f l (i + 1)
  hcur : s.smlrCur = calcSml s.count ulen1 s.ulen2
  hc0 : c0 ≤ s.smlrCur

/-- The invariant of the shrink loop when `tmpLower` is `p`. -/
structure ShrinkInv (t : List Int) (f : List Bool) (ulen1 : Int) (lo i : Nat) (c0 : ℚ)
    (s : ShrinkState) (l p : Nat) : Prop where
  ok : ShrinkOK t f ulen1 lo i c0 s l
  htmp : s.tmpLower = (p : Int)
  hlp : l ≤ p
  hpi : p ≤ i
  htu : s.tmpUlen2 = winCard t p (i + 1)
  htc : s.tmpCount = winCount t f p (i + 1)

/-- The value `r` is 0 or the similarity of a span of `trg2indexes` that ends
at a matched position. -/
def SpanVal (t : List Int) (f : List Bool) (ulen1 : Int) (r : ℚ) : Prop :=
  r = 0 ∨ ∃ l u, l ≤ u ∧ u < t.length ∧ isFound f (t.getD u 0) = true ∧
    r = spanSml t f ulen1 l u

/-- The invariant of the scanning loop at the head of iteration `i`; `lo` is
the lower bound of the current window (`i` itself while no window is open). -/
structure ScanInv (t : List Int) (f : List Bool) (ulen1 : Int) (len1 i : Nat)
    (st : ScanState) (lo : Nat) : Prop where
  hlo : lo ≤ i
  hlower : (st.lower = -1 ∧ lo = i) ∨ (st.lower = (lo : Int) ∧ lo < i)
  hulen2 : st.ulen2 = winCard t lo i
  hcount : st.count = winCount t f lo i
  hlast : LastPosOK t len1 st.lastPos lo i
  hmax : SpanVal t f ulen1 st.smlrMax
  hpos : (∃ u, u < i ∧ isFound f (t.getD u 0) = true) → 0 < st.smlrMax

/-- What one scan step establishes: a final value that is a span value, or the
invariant for the next iteration. -/
def StepPost (t : List Int) (f : List Bool) (ulen1 : Int) (len1 i : Nat) :
    ℚ ⊕ ScanState → Prop
  | Sum.inl v => SpanVal t f ulen1 v ∧ 0 < v
  | Sum.inr st => ∃ lo, ScanInv t f ulen1 len1 (i + 1) st lo

/-- Every identity recorded in `trg2indexes`, and the current identity `j`, is
marked in `found`. -/
def AllMatched (st : MergeState) : Prop :=
  isFound st.found st.j = true ∧ ∀ v ∈ st.trg2indexes, isFound st.found v = true

/-- The reference list of trigrams of one word, in the words of the
specification: with `p` the word between two spaces on each side, the
substrings `p[i..i+3]` for `i = 0 .. len(p)-3`, from left to right. -/
def wordTrigramsRef (w : GoString) : List GoString :=
  (List.range (([32, 32] ++ w ++ [32, 32]).length - 2)).map fun i =>
    [([32, 32] ++ w ++ [32, 32]).getD i 0, ([32, 32] ++ w ++ [32, 32]).getD (i + 1) 0,
     ([32, 32] ++ w ++ [32, 32]).getD (i + 2) 0]

/-- The reference extraction of a non-empty string, in the words of the
specification: the concatenation, over the words of the lowercased string split
on the space character, in order, of the trigrams of each word. -/
def generateTrgmRef (s : GoString) : List GoString :=
  (splitSpace (toLower s)).flatMap wordTrigramsRef

/-- Go `calcSml` behind the assertion `1 ≤ count ≤ len1` and `count ≤ len2`,
under which its denominator `len1 + len2 - count` is at least 1; `none` is a
failed assertion. -/
def calcSmlChecked (count len1 len2 : Int) : Option ℚ :=
  if 1 ≤ count ∧ count ≤ len1 ∧ count ≤ len2 then some (calcSml count len1 len2) else none

/-- Lines 159-165 with the call of `calcSml` at line 159 asserted:
`shrinkCommit` over `calcSmlChecked`. -/
def shrinkCommitChecked (ulen1 : Int) (s : ShrinkState) : Option ShrinkState :=
  (calcSmlChecked s.tmpCount ulen1 s.tmpUlen2).bind fun smlrTmp =>
    some (if s.smlrCur < smlrTmp then
      { s with smlrCur := smlrTmp, ulen2 := s.tmpUlen2, lower := s.tmpLower, count := s.tmpCount }
    else s)

/-- The left-shrink loop, lines 158-178, with the call of `calcSml` asserted:
`shrinkLoop` over `shrinkCommitChecked`. -/
def shrinkLoopChecked (checkOnly : Bool) (trg2indexes : List Int) (found : List Bool)
    (lastPos : List Int) (ulen1 : Int) : Nat → ShrinkState → Option ShrinkState
  | 0, s => some s
  | n + 1, s =>
    (shrinkCommitChecked ulen1 s).bind fun s1 =>
      if checkOnly = true ∧ wordSimilarityThreshold ≤ s1.smlrCur then some s1
      else
        (shrinkDrop trg2indexes found lastPos s1).bind
          (shrinkLoopChecked checkOnly trg2indexes found lastPos ulen1 n)

/-- Lines 152-156 with the call of `calcSml` at line 152 asserted: `shrinkInit`
over `calcSmlChecked`. -/
def shrinkInitChecked (ulen1 : Int) (st : ScanState) : Option ShrinkState :=
  (calcSmlChecked st.count ulen1 st.ulen2).bind fun smlrCur =>
    some { tmpLower := st.lower, tmpCount := st.count, tmpUlen2 := st.ulen2,
           smlrCur := smlrCur, ulen2 := st.ulen2, lower := st.lower, count := st.count }

/-- Lines 145-192 with both calls of `calcSml` asserted: `matchedStep` over
`shrinkInitChecked` and `shrinkLoopChecked`. -/
def matchedStepChecked (checkOnly : Bool) (trg2indexes : List Int) (found : List Bool)
    (ulen1 : Int) (st : ScanState) : Option (ℚ ⊕ ScanState) :=
  (shrinkInitChecked ulen1 st).bind fun s0 =>
    (shrinkLoopChecked checkOnly trg2indexes found st.lastPos ulen1
        (st.upper - st.lower).toNat s0).bind fun sh =>
      if checkOnly = true ∧ wordSimilarityThreshold < max st.smlrMax sh.smlrCur then
        some (Sum.inl (max st.smlrMax sh.smlrCur))
      else (closeIteration trg2indexes st sh).map Sum.inr

/-- One iteration of the scanning loop with the calls of `calcSml` asserted. -/
def scanStepChecked (checkOnly : Bool) (trg2indexes : List Int) (found : List Bool)
    (ulen1 : Int) (i : Int) (st : ScanState) : Option (ℚ ⊕ ScanState) :=
  (idx? trg2indexes i).bind fun trgIndex =>
    (scanUpdate found trgIndex i st).bind fun st1 =>
      (idx? found trgIndex).bind fun f =>
        if f = true then matchedStepChecked checkOnly trg2indexes found ulen1 (openWindow i st1)
        else some (Sum.inr st1)

/-- The scanning loop with the calls of `calcSml` asserted. -/
def scanLoopChecked (checkOnly : Bool) (trg2indexes : List Int) (found : List Bool)
    (ulen1 : Int) : Nat → Int → ScanState → Option ℚ
  | 0, _, st => some st.smlrMax
  | n + 1, i, st =>
    (scanStepChecked checkOnly trg2indexes found ulen1 i st).bind fun r =>
      match r with
      | Sum.inl smlrMax => some smlrMax
      | Sum.inr st1 => scanLoopChecked checkOnly trg2indexes found ulen1 n (i + 1) st1

/-- Go `iterateWordSimilarity` with an assertion before each call of `calcSml`
(lines 152 and 159): it returns `none` as soon as a call is made with
arguments that violate `1 ≤ count ≤ ulen1` or `count ≤ ulen2`. -/
def iterateWordSimilarityChecked (trg2indexes : List Int) (found : List Bool)
    (ulen1 : Int) (len1 len2 : Nat) : Option ℚ :=
  scanLoopChecked true trg2indexes found ulen1 len2 0
    { ulen2 := 0, count := 0, upper := -1, smlrMax := 0, lower := -1,
      lastPos := List.replicate len1 (-1) }

end GoTrgm

/-! ## The sort-and-group loop: no panic, well-formed result -/

namespace GoTrgm

theorem idx?_natCast {α : Type} (xs : List α) (n : Nat) : idx? xs (n : Int) = xs[n]? := by
  simp [idx?]

theorem set?_natCast {α : Type} (xs : List α) (n : Nat) (v : α) (h : n < xs.length) :
    set? xs (n : Int) v = some (xs.set n v) := by
  simp [set?, h]

theorem mergeInv_init (len1 len2 : Nat) :
    MergeInv len1 len2 0
      { trg2indexes := List.replicate len2 0, found := List.replicate len1 false,
        ulen1 := 0, j := 0 } 0 := by
  refine ⟨rfl, Or.inl rfl, by simp, by simp, ?_, ?_, ?_⟩
  · intro v hv
    simp [List.mem_replicate] at hv
    simp [hv.2]
  · simp
  · intro k _
    simp [List.getD_eq_getElem?_getD, List.getElem?_replicate]
    split <;> simp

theorem count_take_succ (l : List Bool) (n : Nat) (h : n < l.length) :
    (l.take (n + 1)).count true = (l.take n).count true + (if l[n] then 1 else 0) := by
  have e : l.take (n + 1) = l.take n ++ [l[n]] := by
    rw [List.take_succ, List.getElem?_eq_getElem h]; rfl
  rw [e, List.count_append]
  cases l[n] <;> simp

theorem MergeInv.mono {len1 len2 i : Nat} {st : MergeState} {jn : Nat}
    (h : MergeInv len1 len2 i st jn) : MergeInv len1 len2 (i + 1) st jn :=
  { h with hji := by have := h.hji; omega }

theorem MergeInv.lt_len {len1 len2 i : Nat} {st : MergeState} {jn : Nat}
    (h : MergeInv len1 len2 i st jn) (hi : i ≤ len1) (h0 : 0 < len1) : jn < len1 := by
  have := h.hji; omega

theorem MergeInv.boundary {len1 len2 i : Nat} {st : MergeState} {jn : Nat}
    (h : MergeInv len1 len2 i st jn) (hi : i < len1) (h0 : 0 < i) :
    ∃ f, idx? st.found st.j = some f ∧
      MergeInv len1 len2 (i + 1)
        { st with ulen1 := if f = true then st.ulen1 + 1 else st.ulen1, j := st.j + 1 } (jn + 1) := by
  have hjl : jn < st.found.length := by rw [h.hlenF]; exact h.lt_len (by omega) (by omega)
  refine ⟨st.found[jn], ?_, ?_⟩
  · rw [h.hj, idx?_natCast, List.getElem?_eq_getElem hjl]
  · refine ⟨by simp [h.hj], ?_, h.hlenT, h.hlenF, ?_, ?_, ?_⟩
    · have := h.hji; omega
    · intro v hv
      have := h.hvals v hv
      push_cast
      omega
    · show (if st.found[jn] = true then st.ulen1 + 1 else st.ulen1) = _
      rw [count_take_succ _ _ hjl, h.hcount]
      split <;> simp
    · intro k hk
      exact h.hrest k (by omega)

theorem MergeInv.setT {len1 len2 i : Nat} {st : MergeState} {jn : Nat}
    (h : MergeInv len1 len2 i st jn) (q : Nat) :
    MergeInv len1 len2 i { st with trg2indexes := st.trg2indexes.set q (jn : Int) } jn := by
  refine ⟨h.hj, h.hji, by simp [h.hlenT], h.hlenF, ?_, h.hcount, h.hrest⟩
  intro v hv
  rcases List.mem_or_eq_of_mem_set hv with hv | hv
  · exact h.hvals v hv
  · subst hv; simp

theorem take_set_self {α : Type} (l : List α) (n : Nat) (a : α) :
    (l.set n a).take n = l.take n :=
  List.ext_getElem? fun i => by
    rw [List.getElem?_take, List.getElem?_take]
    split
    · rw [List.getElem?_set_ne (by omega)]
    · rfl

theorem MergeInv.setF {len1 len2 i : Nat} {st : MergeState} {jn : Nat}
    (h : MergeInv len1 len2 i st jn) :
    MergeInv len1 len2 i { st with found := st.found.set jn true } jn := by
  refine ⟨h.hj, h.hji, h.hlenT, by simp [h.hlenF], h.hvals, ?_, ?_⟩
  · show st.ulen1 = _
    rw [h.hcount, take_set_self]
  · intro k hk
    have := h.hrest k hk
    simp only [List.getD_eq_getElem?_getD] at this ⊢
    rw [List.getElem?_set_ne (by omega)]
    exact this

theorem mergeStep_inv {ptrg : List posTrgm} {len1 len2 i : Nat} {st : MergeState} {jn : Nat}
    (hlen : len1 ≤ ptrg.length) (hidx : ∀ p ∈ ptrg, p.index < (len2 : Int))
    (hi : i < len1) (h : MergeInv len1 len2 i st jn) :
    ∃ st' jn', mergeStep ptrg st i = some st' ∧ MergeInv len1 len2 (i + 1) st' jn' := by
  have hil : i < ptrg.length := by omega
  have hpi : ptrg[i]? = some ptrg[i] := List.getElem?_eq_getElem hil
  have assign : ∀ (st1 : MergeState) (j1 : Nat), MergeInv len1 len2 (i + 1) st1 j1 →
      ∃ st' jn', assignEntry ptrg st1 i = some st' ∧ MergeInv len1 len2 (i + 1) st' jn' := by
    intro st1 j1 h1
    unfold assignEntry
    rw [hpi, Option.some_bind]
    by_cases hp : 0 ≤ ptrg[i].index
    · have hq := hidx _ (List.getElem_mem hil)
      obtain ⟨q, hq'⟩ := Int.eq_ofNat_of_zero_le hp
      rw [if_pos hp, hq', set?_natCast _ _ _ (by rw [h1.hlenT]; omega)]
      have := h1.setT q
      rw [← h1.hj] at this
      exact ⟨_, j1, rfl, this⟩
    · have e : set? st1.found st1.j true = some (st1.found.set j1 true) := by
        rw [h1.hj, set?_natCast _ _ _ (by rw [h1.hlenF]; exact h1.lt_len (by omega) (by omega))]
      rw [if_neg hp, e]
      exact ⟨_, j1, rfl, h1.setF⟩
  unfold mergeStep groupBoundary
  by_cases h0 : 0 < i
  · have hi1 : i - 1 < ptrg.length := by omega
    rw [if_pos h0, List.getElem?_eq_getElem hi1, hpi, Option.some_bind, Option.some_bind]
    by_cases hc : cmpString ptrg[i - 1].trg ptrg[i].trg ≠ 0
    · obtain ⟨f, hf, hinv⟩ := h.boundary hi h0
      rw [if_pos hc, hf, Option.some_bind, Option.some_bind]
      exact assign _ _ hinv
    · rw [if_neg hc, Option.some_bind]
      exact assign _ _ h.mono
  · rw [if_neg h0, Option.some_bind]
    exact assign _ _ h.mono

theorem mergeFold_inv {ptrg : List posTrgm} {len1 len2 : Nat}
    (hlen : len1 ≤ ptrg.length) (hidx : ∀ p ∈ ptrg, p.index < (len2 : Int))
    (n : Nat) (hn : n ≤ len1) :
    ∃ st jn, (List.range n).foldlM (mergeStep ptrg)
        ({ trg2indexes := List.replicate len2 0, found := List.replicate len1 false,
           ulen1 := 0, j := 0 } : MergeState) = some st ∧
      MergeInv len1 len2 n st jn := by
  induction n with
  | zero => exact ⟨_, 0, rfl, mergeInv_init len1 len2⟩
  | succ n ih =>
    obtain ⟨st, jn, hst, hinv⟩ := ih (by omega)
    obtain ⟨st', jn', hst', hinv'⟩ := mergeStep_inv hlen hidx (show n < len1 by omega) hinv
    refine ⟨st', jn', ?_, hinv'⟩
    rw [List.range_succ, List.foldlM_append, hst]
    simpa using hst'

theorem count_true_eq_take {l : List Bool} {n : Nat}
    (h : ∀ k, n ≤ k → l.getD k false = false) : l.count true = (l.take n).count true := by
  conv_lhs => rw [← List.take_append_drop n l]
  rw [List.count_append]
  have : (l.drop n).count true = 0 := by
    rw [List.count_eq_zero]
    intro hmem
    obtain ⟨k, hk, hk'⟩ := List.getElem_of_mem hmem
    have hk2 : n + k < l.length := by simp at hk; omega
    have := h (n + k) (by omega)
    rw [List.getD_eq_getElem?_getD, List.getElem?_eq_getElem hk2] at this
    simp only [List.getElem_drop] at hk'
    simp [hk'] at this
  omega

/-- The sort-and-group loop does not panic when `trg1` is not empty, and what
it hands to the scanner is well formed. -/
theorem mergeLoop_wellFormed {ptrg : List posTrgm} {len1 len2 : Nat}
    (h0 : 0 < len1) (hlen : len1 ≤ ptrg.length) (hidx : ∀ p ∈ ptrg, p.index < (len2 : Int)) :
    ∃ m, mergeLoop ptrg len1 len2 = some m ∧
      WellFormed m.trg2indexes m.found m.ulen1 len1 len2 := by
  obtain ⟨st, jn, hst, hinv⟩ := mergeFold_inv hlen hidx len1 le_rfl
  have hjl : jn < st.found.length := by rw [hinv.hlenF]; exact hinv.lt_len le_rfl h0
  have hf : idx? st.found st.j = some st.found[jn] := by
    rw [hinv.hj, idx?_natCast, List.getElem?_eq_getElem hjl]
  refine ⟨{ st with ulen1 := if st.found[jn] then st.ulen1 + 1 else st.ulen1 }, ?_, ?_⟩
  · unfold mergeLoop
    simp only [hst, hf, Option.bind_eq_bind, Option.some_bind]
  · refine ⟨hinv.hlenT, hinv.hlenF, ?_, ?_⟩
    · intro v hv
      have := hinv.hvals v hv
      have := hinv.lt_len le_rfl h0
      constructor <;> omega
    · show (if st.found[jn] = true then st.ulen1 + 1 else st.ulen1) = _
      rw [count_true_eq_take (n := jn + 1) (fun k hk => hinv.hrest k (by omega)),
        count_take_succ _ _ hjl, hinv.hcount]
      split <;> simp

theorem index_lt_of_mem_makePositionalTrgm {trg1 trg2 : List GoString} {p : posTrgm}
    (hp : p ∈ makePositionalTrgm trg1 trg2) : p.index < (trg2.length : Int) := by
  unfold makePositionalTrgm at hp
  rcases List.mem_append.1 hp with h | h
  · obtain ⟨t, -, rfl⟩ := List.mem_map.1 h
    show (-1 : Int) < _
    omega
  · obtain ⟨q, hq, rfl⟩ := List.mem_map.1 h
    have := List.fst_lt_of_mem_enum hq
    show (q.1 : Int) < _
    omega

theorem length_makePositionalTrgm (trg1 trg2 : List GoString) :
    (makePositionalTrgm trg1 trg2).length = trg1.length + trg2.length := by
  simp [makePositionalTrgm]

/-- The sort-and-group loop of `calcWordSimilarity` does not panic when `trg1`
is not empty, and its results form a well-formed scanner input. -/
theorem mergeTrgm_wellFormed {trg1 : List GoString} (trg2 : List GoString) (h : trg1 ≠ []) :
    ∃ m, mergeTrgm trg1 trg2 = some m ∧
      WellFormed m.trg2indexes m.found m.ulen1 trg1.length trg2.length := by
  unfold mergeTrgm
  apply mergeLoop_wellFormed (List.length_pos.2 h)
  · rw [sortStable, List.length_insertionSort, length_makePositionalTrgm]; omega
  · intro p hp
    rw [sortStable, List.mem_insertionSort] at hp
    exact index_lt_of_mem_makePositionalTrgm hp

theorem foldl_append_eq_flatMap {α β : Type} (f : α → List β) (l : List α) (acc : List β) :
    l.foldl (fun res w => res ++ f w) acc = acc ++ l.flatMap f := by
  induction l generalizing acc with
  | nil => simp
  | cons a l ih => simp [ih, List.append_assoc]

theorem splitSpace_ne_nil (s : GoString) : splitSpace s ≠ [] := by
  cases s with
  | nil => simp [splitSpace]
  | cons c cs =>
    unfold splitSpace
    split
    · simp
    · split <;> simp

theorem makeTrigrams_padded_ne_nil (w : GoString) :
    makeTrigrams ([32, 32] ++ w ++ [32, 32]) ≠ [] := by
  unfold makeTrigrams
  have : ¬ ([32, 32] ++ w ++ [32, 32] : GoString).length < 3 := by simp
  rw [if_neg this]
  simp [List.range_succ]

/-- A non-empty string has at least one trigram. -/
theorem generateTrgmOnly_ne_nil {s : GoString} (h : s ≠ []) : generateTrgmOnly s ≠ [] := by
  unfold generateTrgmOnly
  have hl : ¬ s.length = 0 := by
    intro h'; exact h (List.length_eq_zero.1 h')
  rw [if_neg hl]
  simp only [foldl_append_eq_flatMap, List.nil_append]
  cases hs : splitSpace (toLower s) with
  | nil => exact absurd hs (splitSpace_ne_nil _)
  | cons w ws =>
    intro hnil
    simp only [List.map_cons, List.flatMap_cons, List.append_eq_nil] at hnil
    exact makeTrigrams_padded_ne_nil w hnil.1

theorem generateTrgmOnly_nil : generateTrgmOnly [] = [] := by
  simp [generateTrgmOnly]

end GoTrgm

/-! ## The threshold breaks against the exhaustive scan -/

namespace GoTrgm

theorem shrinkCommit_mono (ulen1 : Int) (s : ShrinkState) :
    s.smlrCur ≤ (shrinkCommit ulen1 s).smlrCur := by
  unfold shrinkCommit
  split
  · next h => exact le_of_lt h
  · exact le_rfl

theorem shrinkDrop_smlrCur {t : List Int} {f : List Bool} {lastPos : List Int}
    {s s' : ShrinkState} (h : shrinkDrop t f lastPos s = some s') : s'.smlrCur = s.smlrCur := by
  unfold shrinkDrop at h
  simp only [Option.bind_eq_bind, Option.bind_eq_some] at h
  obtain ⟨k, -, lp, -, h⟩ := h
  split at h
  · simp only [Option.bind_eq_some] at h
    obtain ⟨b, -, h⟩ := h
    cases h; rfl
  · cases h; rfl

theorem shrinkLoop_mono {c : Bool} {t : List Int} {f : List Bool} {lastPos : List Int}
    {ulen1 : Int} (n : Nat) {s s' : ShrinkState}
    (h : shrinkLoop c t f lastPos ulen1 n s = some s') : s.smlrCur ≤ s'.smlrCur := by
  induction n generalizing s with
  | zero => cases h; exact le_rfl
  | succ n ih =>
    rw [shrinkLoop] at h
    split at h
    · cases h; exact shrinkCommit_mono ulen1 s
    · obtain ⟨s1, h1, h2⟩ := Option.bind_eq_some.1 h
      calc s.smlrCur ≤ (shrinkCommit ulen1 s).smlrCur := shrinkCommit_mono ulen1 s
        _ = s1.smlrCur := (shrinkDrop_smlrCur h1).symm
        _ ≤ s'.smlrCur := ih h2

theorem countNew_smlrMax {f : List Bool} {k : Int} {st st' : ScanState}
    (h : countNew f k st = some st') : st'.smlrMax = st.smlrMax := by
  unfold countNew at h
  obtain ⟨b, -, h⟩ := Option.bind_eq_some.1 h
  cases h; rfl

theorem touch_smlrMax {f : List Bool} {k i : Int} {st st' : ScanState}
    (h : touch f k i st = some st') : st'.smlrMax = st.smlrMax := by
  unfold touch at h
  obtain ⟨lp, -, h⟩ := Option.bind_eq_some.1 h
  obtain ⟨st1, h1, h⟩ := Option.bind_eq_some.1 h
  obtain ⟨l, -, h⟩ := Option.bind_eq_some.1 h
  cases h
  show st1.smlrMax = st.smlrMax
  split at h1
  · exact countNew_smlrMax h1
  · cases h1; rfl

theorem scanUpdate_smlrMax {f : List Bool} {k i : Int} {st st' : ScanState}
    (h : scanUpdate f k i st = some st') : st'.smlrMax = st.smlrMax := by
  unfold scanUpdate at h
  split at h
  · exact touch_smlrMax h
  · obtain ⟨b, -, h⟩ := Option.bind_eq_some.1 h
    split at h
    · exact touch_smlrMax h
    · cases h; rfl

theorem openWindow_smlrMax (i : Int) (st : ScanState) : (openWindow i st).smlrMax = st.smlrMax := by
  unfold openWindow; split <;> rfl

theorem closeIteration_smlrMax {t : List Int} {st st' : ScanState} {sh : ShrinkState}
    (h : closeIteration t st sh = some st') : st'.smlrMax = max st.smlrMax sh.smlrCur := by
  unfold closeIteration at h
  obtain ⟨l, -, h⟩ := Option.bind_eq_some.1 h
  cases h; rfl

theorem matchedStep_mono {c : Bool} {t : List Int} {f : List Bool} {ulen1 : Int}
    {st : ScanState} {r : ℚ ⊕ ScanState} (h : matchedStep c t f ulen1 st = some r) :
    st.smlrMax ≤ stepMax r := by
  unfold matchedStep at h
  obtain ⟨sh, -, h⟩ := Option.bind_eq_some.1 h
  split at h
  · cases h; exact le_max_left _ _
  · obtain ⟨st', h', rfl⟩ := Option.map_eq_some'.1 h
    show _ ≤ st'.smlrMax
    rw [closeIteration_smlrMax h']
    exact le_max_left _ _

theorem scanStep_mono {c : Bool} {t : List Int} {f : List Bool} {ulen1 : Int} {i : Int}
    {st : ScanState} {r : ℚ ⊕ ScanState} (h : scanStep c t f ulen1 i st = some r) :
    st.smlrMax ≤ stepMax r := by
  unfold scanStep at h
  obtain ⟨k, -, h⟩ := Option.bind_eq_some.1 h
  obtain ⟨st1, h1, h⟩ := Option.bind_eq_some.1 h
  obtain ⟨b, -, h⟩ := Option.bind_eq_some.1 h
  rw [← scanUpdate_smlrMax h1]
  split at h
  · have := matchedStep_mono h
    rwa [openWindow_smlrMax] at this
  · cases h; exact le_rfl

theorem scanLoop_mono {c : Bool} {t : List Int} {f : List Bool} {ulen1 : Int} (n : Nat)
    {i : Int} {st : ScanState} {r : ℚ} (h : scanLoop c t f ulen1 n i st = some r) :
    st.smlrMax ≤ r := by
  induction n generalizing i st with
  | zero => cases h; exact le_rfl
  | succ n ih =>
    rw [scanLoop] at h
    obtain ⟨x, hx, h⟩ := Option.bind_eq_some.1 h
    have hm := scanStep_mono hx
    cases x with
    | inl v => cases h; exact hm
    | inr st1 => exact le_trans hm (ih h)

theorem shrinkLoop_couple {t : List Int} {f : List Bool} {lastPos : List Int} {ulen1 : Int}
    (n : Nat) {s a b : ShrinkState}
    (ha : shrinkLoop true t f lastPos ulen1 n s = some a)
    (hb : shrinkLoop false t f lastPos ulen1 n s = some b) :
    a = b ∨ (wordSimilarityThreshold ≤ a.smlrCur ∧ wordSimilarityThreshold ≤ b.smlrCur) := by
  induction n generalizing s with
  | zero => cases ha; cases hb; exact Or.inl rfl
  | succ n ih =>
    rw [shrinkLoop] at ha hb
    rw [if_neg (by simp)] at hb
    obtain ⟨s1, h1, hb⟩ := Option.bind_eq_some.1 hb
    split at ha
    · next hbr =>
      cases ha
      refine Or.inr ⟨hbr.2, le_trans hbr.2 ?_⟩
      rw [← shrinkDrop_smlrCur h1]
      exact shrinkLoop_mono n hb
    · rw [h1] at ha
      exact ih ha hb

theorem stepMax_of_loop {c : Bool} {t : List Int} {f : List Bool} {ulen1 : Int} {n : Nat}
    {i : Int} {x : ℚ ⊕ ScanState} {r : ℚ}
    (h : (match x with
      | Sum.inl smlrMax => some smlrMax
      | Sum.inr st1 => scanLoop c t f ulen1 n (i + 1) st1) = some r) : stepMax x ≤ r := by
  cases x with
  | inl v => cases h; exact le_rfl
  | inr st1 => exact scanLoop_mono n h

theorem matchedStep_couple {t : List Int} {f : List Bool} {ulen1 : Int} {st : ScanState}
    {ra rb : ℚ ⊕ ScanState}
    (ha : matchedStep true t f ulen1 st = some ra)
    (hb : matchedStep false t f ulen1 st = some rb) :
    ra = rb ∨ (wordSimilarityThreshold ≤ stepMax ra ∧ wordSimilarityThreshold ≤ stepMax rb) := by
  unfold matchedStep at ha hb
  obtain ⟨a, hsa, ha⟩ := Option.bind_eq_some.1 ha
  obtain ⟨b, hsb, hb⟩ := Option.bind_eq_some.1 hb
  rw [if_neg (by simp)] at hb
  obtain ⟨stb, hcb, rfl⟩ := Option.map_eq_some'.1 hb
  have hmb : stepMax (Sum.inr stb) = max st.smlrMax b.smlrCur := closeIteration_smlrMax hcb
  rcases shrinkLoop_couple _ hsa hsb with hab | ⟨h1, h2⟩
  · subst hab
    split at ha
    · next hbr =>
      cases ha
      refine Or.inr ⟨le_of_lt hbr.2, ?_⟩
      rw [hmb]; exact le_of_lt hbr.2
    · rw [hcb] at ha
      cases ha
      exact Or.inl rfl
  · refine Or.inr ⟨?_, ?_⟩
    · split at ha
      · cases ha; exact le_trans h1 (le_max_right _ _)
      · obtain ⟨sta, hca, rfl⟩ := Option.map_eq_some'.1 ha
        show _ ≤ sta.smlrMax
        rw [closeIteration_smlrMax hca]
        exact le_trans h1 (le_max_right _ _)
    · rw [hmb]; exact le_trans h2 (le_max_right _ _)

theorem scanStep_couple {t : List Int} {f : List Bool} {ulen1 : Int} {i : Int} {st : ScanState}
    {ra rb : ℚ ⊕ ScanState}
    (ha : scanStep true t f ulen1 i st = some ra)
    (hb : scanStep false t f ulen1 i st = some rb) :
    ra = rb ∨ (wordSimilarityThreshold ≤ stepMax ra ∧ wordSimilarityThreshold ≤ stepMax rb) := by
  unfold scanStep at ha hb
  obtain ⟨k, hk, ha⟩ := Option.bind_eq_some.1 ha
  rw [hk, Option.some_bind] at hb
  obtain ⟨st1, h1, ha⟩ := Option.bind_eq_some.1 ha
  rw [h1, Option.some_bind] at hb
  obtain ⟨m, hm, ha⟩ := Option.bind_eq_some.1 ha
  rw [hm, Option.some_bind] at hb
  by_cases hm' : m = true
  · rw [if_pos hm'] at ha hb
    exact matchedStep_couple ha hb
  · rw [if_neg hm'] at ha hb
    cases ha; cases hb; exact Or.inl rfl

/-- The scan with the threshold breaks and the scan without them, started in
the same state: they return the same value, or both return at least the
threshold. -/
theorem scanLoop_couple {t : List Int} {f : List Bool} {ulen1 : Int} (n : Nat) {i : Int}
    {st : ScanState} {r x : ℚ}
    (ha : scanLoop true t f ulen1 n i st = some r)
    (hb : scanLoop false t f ulen1 n i st = some x) :
    r = x ∨ (wordSimilarityThreshold ≤ r ∧ wordSimilarityThreshold ≤ x) := by
  induction n generalizing i st with
  | zero => cases ha; cases hb; exact Or.inl rfl
  | succ n ih =>
    rw [scanLoop] at ha hb
    obtain ⟨ra, hsa, ha⟩ := Option.bind_eq_some.1 ha
    obtain ⟨rb, hsb, hb⟩ := Option.bind_eq_some.1 hb
    rcases scanStep_couple hsa hsb with hab | ⟨h1, h2⟩
    · subst hab
      cases ra with
      | inl v => cases ha; cases hb; exact Or.inl rfl
      | inr st1 => exact ih ha hb
    · exact Or.inr ⟨le_trans h1 (stepMax_of_loop ha), le_trans h2 (stepMax_of_loop hb)⟩

end GoTrgm

/-! ## The scanner on well-formed input: no panic, the result is a span value -/

namespace GoTrgm

theorem mem_winIds {t : List Int} {lo hi : Nat} {k : Int} :
    k ∈ winIds t lo hi ↔ ∃ p, lo ≤ p ∧ p < hi ∧ t[p]? = some k := by
  unfold winIds
  rw [List.mem_toFinset, List.mem_iff_getElem?]
  constructor
  · rintro ⟨n, hn⟩
    rw [List.getElem?_take] at hn
    split at hn
    · rw [List.getElem?_drop] at hn
      exact ⟨lo + n, by omega, by omega, hn⟩
    · cases hn
  · rintro ⟨p, h1, h2, h3⟩
    refine ⟨p - lo, ?_⟩
    rw [List.getElem?_take, if_pos (by omega), List.getElem?_drop]
    rwa [show lo + (p - lo) = p by omega]

theorem winIds_self (t : List Int) (i : Nat) : winIds t i i = ∅ := by
  ext k
  simp only [mem_winIds, Finset.not_mem_empty, iff_false]
  rintro ⟨p, h1, h2, -⟩
  omega

theorem winIds_succ_right {t : List Int} {lo i : Nat} {k : Int} (h : lo ≤ i)
    (hk : t[i]? = some k) : winIds t lo (i + 1) = insert k (winIds t lo i) := by
  ext x
  simp only [mem_winIds, Finset.mem_insert]
  constructor
  · rintro ⟨p, h1, h2, h3⟩
    by_cases hp : p = i
    · subst hp; rw [hk] at h3; cases h3; exact Or.inl rfl
    · exact Or.inr ⟨p, h1, by omega, h3⟩
  · rintro (rfl | ⟨p, h1, h2, h3⟩)
    · exact ⟨i, h, by omega, hk⟩
    · exact ⟨p, h1, by omega, h3⟩

theorem winIds_succ_left {t : List Int} {p hi : Nat} {k : Int} (h : p < hi)
    (hk : t[p]? = some k) : winIds t p hi = insert k (winIds t (p + 1) hi) := by
  ext x
  simp only [mem_winIds, Finset.mem_insert]
  constructor
  · rintro ⟨q, h1, h2, h3⟩
    by_cases hq : q = p
    · subst hq; rw [hk] at h3; cases h3; exact Or.inl rfl
    · exact Or.inr ⟨q, by omega, h2, h3⟩
  · rintro (rfl | ⟨q, h1, h2, h3⟩)
    · exact ⟨p, le_rfl, h, hk⟩
    · exact ⟨q, by omega, h2, h3⟩

theorem winCard_insert {t : List Int} {f : List Bool} {a b c d : Nat} {k : Int}
    (h : winIds t a b = insert k (winIds t c d)) :
    winCard t a b = (if k ∈ winIds t c d then winCard t c d else winCard t c d + 1) ∧
    winCount t f a b =
      (if k ∈ winIds t c d then winCount t f c d
       else if isFound f k = true then winCount t f c d + 1 else winCount t f c d) := by
  unfold winCard winCount
  rw [h]
  by_cases hk : k ∈ winIds t c d
  · simp [hk, Finset.insert_eq_of_mem]
  · rw [if_neg hk, if_neg hk, Finset.card_insert_of_not_mem hk, Finset.filter_insert]
    refine ⟨by push_cast; rfl, ?_⟩
    by_cases hf : isFound f k = true
    · rw [if_pos hf, if_pos hf, Finset.card_insert_of_not_mem (by simp [hk])]
      push_cast; rfl
    · rw [if_neg hf, if_neg hf]

theorem spanSml_eq (t : List Int) (f : List Bool) (ulen1 : Int) (l u : Nat) :
    spanSml t f ulen1 l u = calcSml (winCount t f l (u + 1)) ulen1 (winCard t l (u + 1)) := by
  unfold spanSml winCount winCard winIds spanIds
  congr 1
  rw [← List.toFinset_card_of_nodup ((List.nodup_dedup _).filter _)]
  congr 2
  ext x
  simp

theorem isFound_natCast {f : List Bool} {k : Nat} (h : k < f.length) :
    isFound f (k : Int) = f[k] := by
  simp [isFound, idx?_natCast, List.getElem?_eq_getElem h]

theorem idx?_found {f : List Bool} {k : Nat} (h : k < f.length) :
    idx? f (k : Int) = some (isFound f (k : Int)) := by
  rw [isFound_natCast h, idx?_natCast, List.getElem?_eq_getElem h]

theorem LastPosOK.mem_iff {t : List Int} {len1 : Nat} {lastPos : List Int} {lo hi : Nat}
    (h : LastPosOK t len1 lastPos lo hi) {k : Nat} (hk : k < len1) :
    ∃ v, lastPos[k]? = some v ∧ (v < 0 ↔ (k : Int) ∉ winIds t lo hi) := by
  rcases h.2 k hk with ⟨h1, h2⟩ | ⟨p, h1, h2, h3, h4, -⟩
  · exact ⟨-1, h1, by simp [h2]⟩
  · refine ⟨p, h1, ?_⟩
    have : (k : Int) ∈ winIds t lo hi := mem_winIds.2 ⟨p, h2, h3, h4⟩
    constructor
    · intro h; omega
    · intro h; exact absurd this h

theorem LastPosOK.touch {t : List Int} {len1 : Nat} {lastPos : List Int} {lo i : Nat}
    (h : LastPosOK t len1 lastPos lo i) (hlo : lo ≤ i) {kn : Nat} (hk : t[i]? = some (kn : Int)) :
    LastPosOK t len1 (lastPos.set kn (i : Int)) lo (i + 1) := by
  refine ⟨by simp [h.1], ?_⟩
  intro k hk1
  by_cases hkk : k = kn
  · subst hkk
    refine Or.inr ⟨i, ?_, hlo, by omega, hk, ?_⟩
    · rw [List.getElem?_set_self (by rw [h.1]; exact hk1)]
    · intro q h1 h2; omega
  · have hne : (kn : Int) ≠ (k : Int) := by
      intro e; exact hkk (by exact_mod_cast e.symm)
    rw [List.getElem?_set_ne (fun e => hkk e.symm)]
    rcases h.2 k hk1 with ⟨h1, h2⟩ | ⟨p, h1, h2, h3, h4, h5⟩
    · refine Or.inl ⟨h1, ?_⟩
      rw [winIds_succ_right hlo hk, Finset.mem_insert]
      rintro (e | e)
      · exact hne e.symm
      · exact h2 e
    · refine Or.inr ⟨p, h1, h2, by omega, h4, ?_⟩
      intro q hq1 hq2
      by_cases hq : q = i
      · subst hq; rw [hk]; intro e; cases e; exact hkk rfl
      · exact h5 q hq1 (by omega)

theorem touch_spec {t : List Int} {f : List Bool} {len1 lo i kn : Nat} {st : ScanState}
    (hf : f.length = len1) (hlo : lo ≤ i) (hk : t[i]? = some (kn : Int)) (hkn : kn < len1)
    (hl : LastPosOK t len1 st.lastPos lo i) (hu : st.ulen2 = winCard t lo i)
    (hc : st.count = winCount t f lo i) :
    ∃ st', touch f (kn : Int) (i : Int) st = some st' ∧ st'.ulen2 = winCard t lo (i + 1) ∧
      st'.count = winCount t f lo (i + 1) ∧ LastPosOK t len1 st'.lastPos lo (i + 1) ∧
      st'.lower = st.lower ∧ st'.smlrMax = st.smlrMax := by
  obtain ⟨v, hv, hvi⟩ := hl.mem_iff hkn
  have hset : set? st.lastPos (kn : Int) (i : Int) = some (st.lastPos.set kn (i : Int)) :=
    set?_natCast _ _ _ (by rw [hl.1]; exact hkn)
  obtain ⟨hcard, hcnt⟩ := winCard_insert (f := f) (winIds_succ_right hlo hk)
  unfold touch
  rw [idx?_natCast, hv, Option.some_bind]
  by_cases hneg : v < 0
  · have hnot := hvi.1 hneg
    rw [if_neg hnot] at hcard hcnt
    rw [if_pos hneg]
    unfold countNew
    rw [idx?_found (by rw [hf]; exact hkn)]
    simp only [Option.some_bind, hset]
    refine ⟨_, rfl, ?_, ?_, hl.touch hlo hk, rfl, rfl⟩
    · show st.ulen2 + 1 = _
      rw [hcard, hu]
    · show (if isFound f (kn : Int) = true then st.count + 1 else st.count) = _
      rw [hcnt, hc]
  · have hmem : (kn : Int) ∈ winIds t lo i := by
      by_contra hnot; exact hneg (hvi.2 hnot)
    rw [if_pos hmem] at hcard hcnt
    rw [if_neg hneg]
    simp only [Option.some_bind, hset]
    refine ⟨_, rfl, ?_, ?_, hl.touch hlo hk, rfl, rfl⟩
    · show st.ulen2 = _
      rw [hcard, hu]
    · show st.count = _
      rw [hcnt, hc]

theorem shrinkCommit_inv {t : List Int} {f : List Bool} {ulen1 : Int} {lo i : Nat} {c0 : ℚ}
    {s : ShrinkState} {l p : Nat} (h : ShrinkInv t f ulen1 lo i c0 s l p) :
    ∃ l', ShrinkInv t f ulen1 lo i c0 (shrinkCommit ulen1 s) l' p := by
  unfold shrinkCommit
  split
  · next hlt =>
    refine ⟨p, ⟨⟨h.htmp, le_trans h.ok.hlo h.hlp, h.hpi, h.htu, h.htc, rfl, ?_⟩, h.htmp, le_rfl,
      h.hpi, h.htu, h.htc⟩⟩
    exact le_trans h.ok.hc0 (le_of_lt hlt)
  · exact ⟨l, h⟩

theorem shrinkDrop_inv {t : List Int} {f : List Bool} {ulen1 : Int} {len1 lo i : Nat} {c0 : ℚ}
    {s : ShrinkState} {l p : Nat} {lastPos : List Int}
    (hf : f.length = len1) (ht : IdsOK t len1) (hit : i < t.length)
    (hl : LastPosOK t len1 lastPos lo (i + 1))
    (h : ShrinkInv t f ulen1 lo i c0 s l p) (hp : p < i) :
    ∃ s', shrinkDrop t f lastPos s = some s' ∧ ShrinkInv t f ulen1 lo i c0 s' l (p + 1) := by
  obtain ⟨kn, hkn, hk⟩ := ht p (by omega)
  have hlop : lo ≤ p := le_trans h.ok.hlo h.hlp
  have hlp := h.hlp
  have hmem : (kn : Int) ∈ winIds t lo (i + 1) := mem_winIds.2 ⟨p, hlop, by omega, hk⟩
  obtain ⟨hcard, hcnt⟩ := winCard_insert (f := f) (winIds_succ_left (show p < i + 1 by omega) hk)
  rcases hl.2 kn hkn with ⟨-, h2⟩ | ⟨q, h1, h2, h3, h4, h5⟩
  · exact absurd hmem h2
  · have hqp : p ≤ q := by
      by_contra hlt
      exact h5 p (by omega) (by omega) hk
    unfold shrinkDrop
    simp only [Option.bind_eq_bind]
    rw [h.htmp, idx?_natCast, hk, Option.some_bind, idx?_natCast, h1, Option.some_bind]
    by_cases hq : q = p
    · subst hq
      have hnot : (kn : Int) ∉ winIds t (q + 1) (i + 1) := by
        rw [mem_winIds]
        rintro ⟨r, hr1, hr2, hr3⟩
        exact h5 r (by omega) hr2 hr3
      rw [if_neg hnot] at hcard hcnt
      rw [if_pos rfl, idx?_found (by rw [hf]; exact hkn), Option.some_bind]
      refine ⟨_, rfl, ⟨h.ok.hlower, h.ok.hlo, h.ok.hli, h.ok.hulen2, h.ok.hcount, h.ok.hcur,
        h.ok.hc0⟩, ?_, by omega, by omega, ?_, ?_⟩
      · show (_ : Int) + 1 = _
        push_cast; rfl
      · show s.tmpUlen2 - 1 = _
        rw [h.htu, hcard]; ring
      · show (if isFound f (kn : Int) = true then s.tmpCount - 1 else s.tmpCount) = _
        rw [h.htc, hcnt]
        split <;> ring
    · have hin : (kn : Int) ∈ winIds t (p + 1) (i + 1) :=
        mem_winIds.2 ⟨q, by omega, h3, h4⟩
      rw [if_pos hin] at hcard hcnt
      rw [if_neg (by intro e; exact hq (by exact_mod_cast e))]
      refine ⟨_, rfl, ⟨h.ok.hlower, h.ok.hlo, h.ok.hli, h.ok.hulen2, h.ok.hcount, h.ok.hcur,
        h.ok.hc0⟩, ?_, by omega, by omega, ?_, ?_⟩
      · show (_ : Int) + 1 = _
        push_cast; rfl
      · show s.tmpUlen2 = _
        rw [h.htu, hcard]
      · show s.tmpCount = _
        rw [h.htc, hcnt]

theorem shrinkLoop_spec {c : Bool} {t : List Int} {f : List Bool} {ulen1 : Int}
    {len1 lo i : Nat} {c0 : ℚ} {lastPos : List Int}
    (hf : f.length = len1) (ht : IdsOK t len1) (hit : i < t.length)
    (hl : LastPosOK t len1 lastPos lo (i + 1)) (n : Nat) {s : ShrinkState} {l p : Nat}
    (hn : n + p = i) (h : ShrinkInv t f ulen1 lo i c0 s l p) :
    ∃ s' l', shrinkLoop c t f lastPos ulen1 n s = some s' ∧ ShrinkOK t f ulen1 lo i c0 s' l' := by
  induction n generalizing s l p with
  | zero => exact ⟨s, l, rfl, h.ok⟩
  | succ n ih =>
    obtain ⟨l1, h1⟩ := shrinkCommit_inv h
    rw [shrinkLoop]
    split
    · exact ⟨_, l1, rfl, h1.ok⟩
    · obtain ⟨s2, hs2, h2⟩ := shrinkDrop_inv hf ht hit hl h1 (by omega)
      rw [hs2, Option.some_bind]
      exact ih (by omega) h2

theorem winIds_subset_left {t : List Int} {p hi : Nat} {k : Int}
    (h : k ∈ winIds t (p + 1) hi) : k ∈ winIds t p hi := by
  obtain ⟨q, h1, h2, h3⟩ := mem_winIds.1 h
  exact mem_winIds.2 ⟨q, by omega, h2, h3⟩

theorem LastPosOK.drop_left {t : List Int} {len1 : Nat} {lastPos lastPos' : List Int}
    {p hi : Nat} (h : LastPosOK t len1 lastPos p hi) (hlen : lastPos'.length = len1)
    (hnew : ∀ k : Nat, k < len1 →
      (lastPos'[k]? = lastPos[k]? ∧ lastPos[k]? ≠ some (p : Int)) ∨
      (lastPos[k]? = some (p : Int) ∧ lastPos'[k]? = some (-1))) :
    LastPosOK t len1 lastPos' (p + 1) hi := by
  refine ⟨hlen, ?_⟩
  intro k hk
  rcases h.2 k hk with ⟨h1, h2⟩ | ⟨q, h1, h2, h3, h4, h5⟩
  · rcases hnew k hk with ⟨e, -⟩ | ⟨e, -⟩
    · exact Or.inl ⟨by rw [e, h1], fun hm => h2 (winIds_subset_left hm)⟩
    · rw [h1] at e; cases e
  · rcases hnew k hk with ⟨e, hne⟩ | ⟨e, e'⟩
    · have hqp : q ≠ p := by
        intro hq; subst hq; exact hne h1
      exact Or.inr ⟨q, by rw [e, h1], by omega, h3, h4, h5⟩
    · rw [h1] at e
      have hq : q = p := by
        cases e; rfl
      subst hq
      refine Or.inl ⟨e', ?_⟩
      rw [mem_winIds]
      rintro ⟨r, hr1, hr2, hr3⟩
      exact h5 r (by omega) hr2 hr3

theorem invalidateStep_spec {t : List Int} {len1 : Nat} {lastPos : List Int} {p hi : Nat}
    (ht : IdsOK t len1) (hp : p < hi) (hhi : hi ≤ t.length)
    (h : LastPosOK t len1 lastPos p hi) :
    ∃ lastPos', invalidateStep t (p : Int) lastPos = some lastPos' ∧
      LastPosOK t len1 lastPos' (p + 1) hi := by
  obtain ⟨kn, hkn, hk⟩ := ht p (by omega)
  have hmem : (kn : Int) ∈ winIds t p hi := mem_winIds.2 ⟨p, le_rfl, hp, hk⟩
  rcases h.2 kn hkn with ⟨-, h2⟩ | ⟨q, h1, h2, h3, h4, h5⟩
  · exact absurd hmem h2
  · unfold invalidateStep
    simp only [Option.bind_eq_bind]
    rw [idx?_natCast, hk, Option.some_bind, idx?_natCast, h1, Option.some_bind]
    by_cases hq : q = p
    · subst hq
      rw [if_pos rfl, set?_natCast _ _ _ (by rw [h.1]; exact hkn)]
      refine ⟨_, rfl, h.drop_left (by simp [h.1]) ?_⟩
      intro k hk1
      by_cases hkk : k = kn
      · subst hkk
        exact Or.inr ⟨h1, by rw [List.getElem?_set_self (by rw [h.1]; exact hk1)]⟩
      · refine Or.inl ⟨by rw [List.getElem?_set_ne (fun e => hkk e.symm)], ?_⟩
        intro e
        rcases h.2 k hk1 with ⟨e1, -⟩ | ⟨r, e1, -, -, e4, -⟩
        · rw [e1] at e; cases e
        · rw [e1] at e
          have hr : r = q := by
            have : (r : Int) = (q : Int) := by
              cases e; rfl
            exact_mod_cast this
          subst hr
          rw [hk] at e4
          cases e4
          exact hkk rfl
    · rw [if_neg (by intro e; exact hq (by exact_mod_cast e))]
      refine ⟨_, rfl, h.drop_left h.1 ?_⟩
      intro k hk1
      refine Or.inl ⟨rfl, ?_⟩
      intro e
      rcases h.2 k hk1 with ⟨e1, -⟩ | ⟨r, e1, -, -, e4, -⟩
      · rw [e1] at e; cases e
      · rw [e1] at e
        have hr : r = p := by
          have : (r : Int) = (p : Int) := by
            cases e; rfl
          exact_mod_cast this
        subst hr
        rw [hk] at e4
        have hkk : k = kn := by
          have : (kn : Int) = (k : Int) := by
            cases e4; rfl
          exact_mod_cast this.symm
        subst hkk
        rw [h1] at e1
        apply hq
        have : (q : Int) = (r : Int) := by
          cases e1; rfl
        exact_mod_cast this

theorem invalidateLoop_spec {t : List Int} {len1 : Nat} {hi : Nat}
    (ht : IdsOK t len1) (hhi : hi ≤ t.length) (n : Nat) {p : Nat} {lastPos : List Int}
    (hn : p + n < hi) (h : LastPosOK t len1 lastPos p hi) :
    ∃ lastPos', invalidateLoop t n (p : Int) lastPos = some lastPos' ∧
      LastPosOK t len1 lastPos' (p + n) hi := by
  induction n generalizing p lastPos with
  | zero => exact ⟨lastPos, rfl, h⟩
  | succ n ih =>
    obtain ⟨l1, hl1, h1⟩ := invalidateStep_spec ht (show p < hi by omega) hhi h
    rw [invalidateLoop, hl1, Option.some_bind]
    have := ih (p := p + 1) (by omega) h1
    rw [show p + 1 + n = p + (n + 1) by omega] at this
    exact_mod_cast this

theorem winCount_le_winCard (t : List Int) (f : List Bool) (lo hi : Nat) :
    winCount t f lo hi ≤ winCard t lo hi := by
  unfold winCount winCard
  exact_mod_cast Finset.card_filter_le _ _

theorem winCount_pos {t : List Int} {f : List Bool} {lo hi : Nat} {k : Int}
    (hk : k ∈ winIds t lo hi) (hf : isFound f k = true) : 1 ≤ winCount t f lo hi := by
  unfold winCount
  have : 0 < ((winIds t lo hi).filter (fun k => isFound f k = true)).card :=
    Finset.card_pos.2 ⟨k, Finset.mem_filter.2 ⟨hk, hf⟩⟩
  omega

theorem count_true_pos {f : List Bool} {k : Nat} (hk : k < f.length)
    (hf : isFound f (k : Int) = true) : 1 ≤ f.count true := by
  rw [isFound_natCast hk] at hf
  exact List.count_pos_iff.2 (hf ▸ List.getElem_mem hk)

theorem calcSml_pos {count ulen1 ulen2 : Int} (h1 : 1 ≤ count) (h2 : count ≤ ulen2)
    (h3 : 1 ≤ ulen1) : 0 < calcSml count ulen1 ulen2 := by
  unfold calcSml
  apply div_pos
  · exact_mod_cast (by omega : 0 < count)
  · exact_mod_cast (by omega : 0 < ulen1 + ulen2 - count)

theorem LastPosOK.empty {t : List Int} {len1 : Nat} {lastPos : List Int} {i : Nat}
    (h : LastPosOK t len1 lastPos i i) (j : Nat) : LastPosOK t len1 lastPos j j := by
  refine ⟨h.1, fun k hk => ?_⟩
  rcases h.2 k hk with ⟨h1, -⟩ | ⟨p, -, h2, h3, -⟩
  · exact Or.inl ⟨h1, by simp [winIds_self]⟩
  · omega

theorem getD_of_getElem? {t : List Int} {i : Nat} {k : Int} (h : t[i]? = some k) :
    t.getD i 0 = k := by
  simp [List.getD_eq_getElem?_getD, h]

theorem SpanVal.max {t : List Int} {f : List Bool} {ulen1 : Int} {a b : ℚ}
    (ha : SpanVal t f ulen1 a) (hb : SpanVal t f ulen1 b) : SpanVal t f ulen1 (max a b) := by
  rcases max_cases a b with ⟨e, -⟩ | ⟨e, -⟩ <;> rw [e] <;> assumption

theorem matchedStep_spec {c : Bool} {t : List Int} {f : List Bool} {ulen1 : Int}
    {len1 lo i kn : Nat} {st : ScanState}
    (hf : f.length = len1) (ht : IdsOK t len1) (hu1 : ulen1 = ((f.count true : Nat) : Int))
    (hit : i < t.length) (hk : t[i]? = some (kn : Int)) (hkn : kn < len1)
    (hfound : isFound f (kn : Int) = true) (hlo : lo ≤ i)
    (hlower : st.lower = (lo : Int)) (hupper : st.upper = (i : Int))
    (hulen2 : st.ulen2 = winCard t lo (i + 1)) (hcount : st.count = winCount t f lo (i + 1))
    (hlast : LastPosOK t len1 st.lastPos lo (i + 1)) (hmax : SpanVal t f ulen1 st.smlrMax) :
    ∃ r, matchedStep c t f ulen1 st = some r ∧ StepPost t f ulen1 len1 i r := by
  have hmem : (kn : Int) ∈ winIds t lo (i + 1) := mem_winIds.2 ⟨i, hlo, by omega, hk⟩
  have hc0 : 0 < calcSml st.count ulen1 st.ulen2 := by
    apply calcSml_pos
    · rw [hcount]; exact winCount_pos hmem hfound
    · rw [hcount, hulen2]; exact winCount_le_winCard _ _ _ _
    · rw [hu1]; exact_mod_cast count_true_pos (by rw [hf]; exact hkn) hfound
  have hinit : ShrinkInv t f ulen1 lo i (calcSml st.count ulen1 st.ulen2)
      (shrinkInit ulen1 st) lo lo :=
    ⟨⟨hlower, le_rfl, hlo, hulen2, hcount, rfl, le_rfl⟩, hlower, le_rfl, hlo, hulen2, hcount⟩
  have hn : (st.upper - st.lower).toNat = i - lo := by rw [hlower, hupper]; omega
  obtain ⟨sh, l, hsh, hok⟩ := shrinkLoop_spec (c := c) hf ht hit hlast (i - lo)
    (show i - lo + lo = i by omega) hinit
  have hshval : SpanVal t f ulen1 sh.smlrCur := by
    refine Or.inr ⟨l, i, hok.hli, hit, ?_, ?_⟩
    · rw [getD_of_getElem? hk]; exact hfound
    · rw [spanSml_eq, hok.hcur, hok.hcount, hok.hulen2]
  have hmaxval := hmax.max hshval
  have hmaxpos : 0 < max st.smlrMax sh.smlrCur :=
    lt_of_lt_of_le (lt_of_lt_of_le hc0 hok.hc0) (le_max_right _ _)
  unfold matchedStep
  rw [hn, hsh, Option.some_bind]
  split
  · exact ⟨_, rfl, hmaxval, hmaxpos⟩
  · have hli := hok.hli
    have hlol := hok.hlo
    have hn2 : (sh.lower - st.lower).toNat = l - lo := by rw [hok.hlower, hlower]; omega
    obtain ⟨lp, hlp, hlpok⟩ := invalidateLoop_spec ht (show i + 1 ≤ t.length by omega)
      (l - lo) (show lo + (l - lo) < i + 1 by omega) hlast
    rw [show lo + (l - lo) = l by omega] at hlpok
    unfold closeIteration
    rw [hn2, hlower, hlp]
    refine ⟨_, rfl, l, ?_⟩
    exact ⟨by omega, Or.inr ⟨hok.hlower, by omega⟩, hok.hulen2, hok.hcount, hlpok, hmaxval,
      fun _ => hmaxpos⟩

theorem winCard_single {t : List Int} {i : Nat} {k : Int} (hk : t[i]? = some k) :
    winCard t i (i + 1) = 1 := by
  unfold winCard
  rw [winIds_succ_right le_rfl hk, winIds_self]
  simp

theorem scanStep_spec {c : Bool} {t : List Int} {f : List Bool} {ulen1 : Int}
    {len1 lo i : Nat} {st : ScanState}
    (hf : f.length = len1) (ht : IdsOK t len1) (hu1 : ulen1 = ((f.count true : Nat) : Int))
    (hit : i < t.length) (h : ScanInv t f ulen1 len1 i st lo) :
    ∃ r, scanStep c t f ulen1 (i : Int) st = some r ∧ StepPost t f ulen1 len1 i r := by
  obtain ⟨kn, hkn, hk⟩ := ht i hit
  have hidf : idx? f (kn : Int) = some (isFound f (kn : Int)) :=
    idx?_found (by rw [hf]; exact hkn)
  have hnotfound : ∀ st1 : ScanState, isFound f (kn : Int) ≠ true →
      (∃ lo1, ScanInv t f ulen1 len1 (i + 1) st1 lo1) →
      ∃ r, ((some (isFound f (kn : Int))).bind fun b =>
        if b = true then matchedStep c t f ulen1 (openWindow (i : Int) st1)
        else some (Sum.inr st1)) = some r ∧ StepPost t f ulen1 len1 i r := by
    intro st1 hnf hinv
    rw [Option.some_bind, if_neg hnf]
    exact ⟨_, rfl, hinv⟩
  have hposnf : isFound f (kn : Int) ≠ true →
      (∃ u, u < i + 1 ∧ isFound f (t.getD u 0) = true) → 0 < st.smlrMax := by
    rintro hnf ⟨u, hu, hfu⟩
    by_cases hui : u = i
    · subst hui; rw [getD_of_getElem? hk] at hfu; exact absurd hfu hnf
    · exact h.hpos ⟨u, by omega, hfu⟩
  have hmatched : ∀ st1 : ScanState, isFound f (kn : Int) = true →
      (st1.lower = -1 ∧ lo = i ∨ st1.lower = (lo : Int)) →
      st1.ulen2 = winCard t lo (i + 1) → st1.count = winCount t f lo (i + 1) →
      LastPosOK t len1 st1.lastPos lo (i + 1) → st1.smlrMax = st.smlrMax →
      ∃ r, ((some (isFound f (kn : Int))).bind fun b =>
        if b = true then matchedStep c t f ulen1 (openWindow (i : Int) st1)
        else some (Sum.inr st1)) = some r ∧ StepPost t f ulen1 len1 i r := by
    intro st1 hfd hlow hu hc hl hm
    rw [Option.some_bind, if_pos hfd]
    have hmax1 : SpanVal t f ulen1 st1.smlrMax := by rw [hm]; exact h.hmax
    unfold openWindow
    by_cases hneg : st1.lower = -1
    · rw [if_pos hneg]
      have hloi : lo = i := by
        rcases hlow with ⟨-, e⟩ | e
        · exact e
        · rw [hneg] at e; omega
      subst hloi
      exact matchedStep_spec hf ht hu1 hit hk hkn hfd le_rfl rfl rfl
        (winCard_single hk).symm hc hl hmax1
    · rw [if_neg hneg]
      have hlow' : st1.lower = (lo : Int) := by
        rcases hlow with ⟨e, -⟩ | e
        · exact absurd e hneg
        · exact e
      exact matchedStep_spec hf ht hu1 hit hk hkn hfd h.hlo hlow' rfl hu hc hl hmax1
  unfold scanStep
  rw [idx?_natCast, hk, Option.some_bind]
  unfold scanUpdate
  obtain ⟨st1, hst1, hu, hc, hl, hlow, hm⟩ :=
    touch_spec hf h.hlo hk hkn h.hlast h.hulen2 h.hcount
  by_cases hge : 0 ≤ st.lower
  · have hlower : st.lower = (lo : Int) ∧ lo < i := by
      rcases h.hlower with ⟨e, -⟩ | e
      · rw [e] at hge; omega
      · exact e
    rw [if_pos hge, hst1, Option.some_bind, hidf]
    by_cases hfd : isFound f (kn : Int) = true
    · exact hmatched st1 hfd (Or.inr (by rw [hlow]; exact hlower.1)) hu hc hl hm
    · refine hnotfound st1 hfd ⟨lo, ?_⟩
      exact ⟨by omega, Or.inr ⟨by rw [hlow]; exact hlower.1, by omega⟩, hu, hc, hl,
        by rw [hm]; exact h.hmax, fun hx => by rw [hm]; exact hposnf hfd hx⟩
  · have hlower : st.lower = -1 ∧ lo = i := by
      rcases h.hlower with e | ⟨e, -⟩
      · exact e
      · rw [e] at hge; omega
    rw [if_neg hge, hidf, Option.some_bind]
    by_cases hfd : isFound f (kn : Int) = true
    · rw [if_pos hfd, hst1, Option.some_bind]
      exact hmatched st1 hfd (Or.inl ⟨by rw [hlow]; exact hlower.1, hlower.2⟩) hu hc hl hm
    · rw [if_neg hfd, Option.some_bind]
      refine hnotfound st hfd ⟨i + 1, ?_⟩
      obtain ⟨hneg, hloi⟩ := hlower
      subst hloi
      refine ⟨le_rfl, Or.inl ⟨hneg, rfl⟩, ?_, ?_, h.hlast.empty _, h.hmax, hposnf hfd⟩
      · rw [h.hulen2]; unfold winCard; rw [winIds_self, winIds_self]
      · rw [h.hcount]; unfold winCount; rw [winIds_self, winIds_self]

theorem scanLoop_spec {c : Bool} {t : List Int} {f : List Bool} {ulen1 : Int} {len1 : Nat}
    (hf : f.length = len1) (ht : IdsOK t len1) (hu1 : ulen1 = ((f.count true : Nat) : Int))
    (n : Nat) {i lo : Nat} {st : ScanState} (hn : n + i = t.length)
    (h : ScanInv t f ulen1 len1 i st lo) :
    ∃ r, scanLoop c t f ulen1 n (i : Int) st = some r ∧ SpanVal t f ulen1 r ∧
      ((∃ u, u < t.length ∧ isFound f (t.getD u 0) = true) → 0 < r) := by
  induction n generalizing i lo st with
  | zero =>
    refine ⟨st.smlrMax, rfl, h.hmax, ?_⟩
    have : i = t.length := by omega
    subst this
    exact h.hpos
  | succ n ih =>
    obtain ⟨r, hr, hpost⟩ := scanStep_spec (c := c) hf ht hu1 (show i < t.length by omega) h
    rw [scanLoop, hr, Option.some_bind]
    cases r with
    | inl v => exact ⟨v, rfl, hpost.1, fun _ => hpost.2⟩
    | inr st1 =>
      obtain ⟨lo1, h1⟩ := hpost
      have := ih (i := i + 1) (by omega) h1
      exact_mod_cast this

theorem WellFormed.idsOK {t : List Int} {f : List Bool} {ulen1 : Int} {len1 len2 : Nat}
    (h : WellFormed t f ulen1 len1 len2) : IdsOK t len1 := by
  intro p hp
  obtain ⟨h0, h1⟩ := h.2.2.1 t[p] (List.getElem_mem hp)
  refine ⟨t[p].toNat, by omega, ?_⟩
  rw [List.getElem?_eq_getElem hp, Int.toNat_of_nonneg h0]

theorem scanInv_init (t : List Int) (f : List Bool) (ulen1 : Int) (len1 : Nat) :
    ScanInv t f ulen1 len1 0
      { ulen2 := 0, count := 0, upper := -1, smlrMax := 0, lower := -1,
        lastPos := List.replicate len1 (-1) } 0 := by
  refine ⟨le_rfl, Or.inl ⟨rfl, rfl⟩, ?_, ?_, ⟨by simp, ?_⟩, Or.inl rfl, ?_⟩
  · simp [winCard, winIds_self]
  · simp [winCount, winIds_self]
  · intro k hk
    refine Or.inl ⟨?_, by simp [winIds_self]⟩
    simp [List.getElem?_replicate, hk]
  · rintro ⟨u, hu, -⟩
    omega

/-- On a well-formed input the scan, with or without the threshold breaks,
does not panic; the value it returns is 0 or the similarity of a span that
ends at a matched position, and it is positive when some position is
matched. -/
theorem scan_spec (c : Bool) {t : List Int} {f : List Bool} {ulen1 : Int} {len1 len2 : Nat}
    (h : WellFormed t f ulen1 len1 len2) :
    ∃ r, scan c t f ulen1 len1 len2 = some r ∧ SpanVal t f ulen1 r ∧
      ((∃ u, u < t.length ∧ isFound f (t.getD u 0) = true) → 0 < r) := by
  unfold scan
  have := scanLoop_spec (c := c) h.2.1 h.idsOK h.2.2.2 len2 (i := 0) (by rw [h.1]; rfl)
    (scanInv_init t f ulen1 len1)
  exact_mod_cast this

end GoTrgm

/-! ## The maximum over the spans -/

namespace GoTrgm

theorem mem_matchedSpans {t : List Int} {f : List Bool} {l u : Nat} :
    (l, u) ∈ matchedSpans t f ↔ l ≤ u ∧ u < t.length ∧ isFound f (t.getD u 0) = true := by
  unfold matchedSpans
  simp only [List.mem_flatMap, List.mem_range]
  constructor
  · rintro ⟨a, ha, hm⟩
    split at hm
    · next hf =>
      simp only [List.mem_map, List.mem_range, Prod.mk.injEq] at hm
      obtain ⟨b, hb, rfl, rfl⟩ := hm
      exact ⟨by omega, ha, hf⟩
    · simp at hm
  · rintro ⟨h1, h2, h3⟩
    refine ⟨u, h2, ?_⟩
    rw [if_pos h3]
    exact List.mem_map.2 ⟨l, List.mem_range.2 (by omega), rfl⟩

theorem foldr_max_nonneg (l : List ℚ) : 0 ≤ l.foldr max 0 := by
  induction l with
  | nil => exact le_rfl
  | cons a l ih => exact le_trans ih (le_max_right _ _)

theorem le_foldr_max {l : List ℚ} {v : ℚ} (h : v ∈ l) : v ≤ l.foldr max 0 := by
  induction l with
  | nil => cases h
  | cons a l ih =>
    rcases List.mem_cons.1 h with rfl | h
    · exact le_max_left _ _
    · exact le_trans (ih h) (le_max_right _ _)

theorem SpanVal.le_maxSpanSml {t : List Int} {f : List Bool} {ulen1 : Int} {r : ℚ}
    (h : SpanVal t f ulen1 r) : r ≤ maxSpanSml t f ulen1 := by
  unfold maxSpanSml
  rcases h with rfl | ⟨l, u, h1, h2, h3, rfl⟩
  · exact foldr_max_nonneg _
  · apply le_foldr_max
    exact List.mem_map.2 ⟨(l, u), mem_matchedSpans.2 ⟨h1, h2, h3⟩, rfl⟩

theorem matchedSpans_eq_nil_iff {t : List Int} {f : List Bool} :
    matchedSpans t f = [] ↔ ¬ ∃ u, u < t.length ∧ isFound f (t.getD u 0) = true := by
  constructor
  · rintro h ⟨u, h1, h2⟩
    have := mem_matchedSpans.2 ⟨le_refl u, h1, h2⟩
    rw [h] at this
    cases this
  · intro h
    rw [List.eq_nil_iff_forall_not_mem]
    rintro ⟨l, u⟩ hm
    obtain ⟨-, h1, h2⟩ := mem_matchedSpans.1 hm
    exact h ⟨u, h1, h2⟩

end GoTrgm

/-! ## Span values lie between 0 and 1 -/

namespace GoTrgm

theorem card_filter_range_eq_count (f : List Bool) (n : Nat) :
    ((Finset.range n).filter (fun k => f.getD k false = true)).card = (f.take n).count true := by
  induction n with
  | zero => simp
  | succ n ih =>
    rw [Finset.range_succ, Finset.filter_insert]
    by_cases hn : n < f.length
    · rw [count_take_succ f n hn, ← ih]
      have hg : f.getD n false = f[n] := by
        simp [List.getD_eq_getElem?_getD, List.getElem?_eq_getElem hn]
      rw [hg]
      by_cases hb : f[n] = true
      · rw [if_pos hb, if_pos hb, Finset.card_insert_of_not_mem (by simp)]
      · rw [if_neg hb, if_neg hb]; rfl
    · have hg : f.getD n false = false := by
        simp [List.getD_eq_getElem?_getD, List.getElem?_eq_none (by omega : f.length ≤ n)]
      rw [hg, if_neg (by simp), ih, List.take_of_length_le (by omega),
        List.take_of_length_le (by omega)]

theorem isFound_true_iff {f : List Bool} {k : Int} :
    isFound f k = true ↔ 0 ≤ k ∧ k.toNat < f.length ∧ f.getD k.toNat false = true := by
  unfold isFound idx?
  by_cases hk : 0 ≤ k
  · rw [if_pos hk]
    by_cases hl : k.toNat < f.length
    · simp [hk, hl, List.getD_eq_getElem?_getD]
    · simp [hk, hl, List.getElem?_eq_none (by omega : f.length ≤ k.toNat)]
  · simp [hk]

theorem winCount_le_count (t : List Int) (f : List Bool) (lo hi : Nat) :
    winCount t f lo hi ≤ ((f.count true : Nat) : Int) := by
  unfold winCount
  have h := card_filter_range_eq_count f f.length
  rw [List.take_length] at h
  rw [← h]
  norm_cast
  apply Finset.card_le_card_of_injOn Int.toNat
  · intro k hk
    have hk' := (Finset.mem_filter.1 (Finset.mem_coe.1 hk)).2
    obtain ⟨-, h2, h3⟩ := isFound_true_iff.1 hk'
    exact Finset.mem_coe.2 (Finset.mem_filter.2 ⟨Finset.mem_range.2 h2, h3⟩)
  · intro a ha b hb hab
    have ha' := (isFound_true_iff.1 (Finset.mem_filter.1 (Finset.mem_coe.1 ha)).2).1
    have hb' := (isFound_true_iff.1 (Finset.mem_filter.1 (Finset.mem_coe.1 hb)).2).1
    have hab' : a.toNat = b.toNat := hab
    omega

theorem calcSml_bounds {count ulen1 ulen2 : Int} (h0 : 0 ≤ count) (h1 : count ≤ ulen2)
    (h2 : count ≤ ulen1) : 0 ≤ calcSml count ulen1 ulen2 ∧ calcSml count ulen1 ulen2 ≤ 1 := by
  unfold calcSml
  have hd : (count : ℚ) ≤ ((ulen1 + ulen2 - count : Int) : ℚ) := by
    exact_mod_cast (by omega : count ≤ ulen1 + ulen2 - count)
  have hc : (0 : ℚ) ≤ (count : ℚ) := by exact_mod_cast h0
  exact ⟨div_nonneg hc (le_trans hc hd), div_le_one_of_le₀ hd (le_trans hc hd)⟩

/-- A span value lies between 0 and 1 when `ulen1` is the number of matched
identities. -/
theorem SpanVal.bounds {t : List Int} {f : List Bool} {ulen1 : Int} {r : ℚ}
    (hu1 : ulen1 = ((f.count true : Nat) : Int)) (h : SpanVal t f ulen1 r) :
    0 ≤ r ∧ r ≤ 1 := by
  rcases h with rfl | ⟨l, u, -, -, -, rfl⟩
  · exact ⟨le_rfl, zero_le_one⟩
  · rw [spanSml_eq]
    apply calcSml_bounds
    · unfold winCount; exact_mod_cast Nat.zero_le _
    · exact winCount_le_winCard _ _ _ _
    · rw [hu1]; exact winCount_le_count _ _ _ _

end GoTrgm

/-! ## The sorted order, and the marks of the sort-and-group loop -/

namespace GoTrgm

theorem cmpString_self (a : GoString) : cmpString a a = 0 := by
  induction a with
  | nil => rfl
  | cons x a ih => simp [cmpString, ih]

theorem cmpString_eq_zero {a b : GoString} (h : cmpString a b = 0) : a = b := by
  induction a generalizing b with
  | nil =>
    cases b with
    | nil => rfl
    | cons y b => simp [cmpString] at h
  | cons x a ih =>
    cases b with
    | nil => simp [cmpString] at h
    | cons y b =>
      rw [cmpString] at h
      split at h
      · omega
      · split at h
        · omega
        · have : x = y := by omega
          rw [this, ih h]

theorem cmpString_swap (a b : GoString) : cmpString b a = - cmpString a b := by
  induction a generalizing b with
  | nil =>
    cases b with
    | nil => rfl
    | cons y b => rfl
  | cons x a ih =>
    cases b with
    | nil => rfl
    | cons y b =>
      rw [cmpString, cmpString]
      by_cases h1 : x < y
      · have h2 : ¬ y < x := by omega
        simp [h1, h2]
      · by_cases h2 : y < x
        · simp [h1, h2]
        · simp [h1, h2, ih b]

theorem cmpString_trans {a b c : GoString} (h1 : cmpString a b ≤ 0) (h2 : cmpString b c ≤ 0) :
    cmpString a c ≤ 0 := by
  induction a generalizing b c with
  | nil =>
    cases c with
    | nil => simp [cmpString]
    | cons z c => simp [cmpString]
  | cons x a ih =>
    cases b with
    | nil => simp [cmpString] at h1
    | cons y b =>
      cases c with
      | nil => simp [cmpString] at h2
      | cons z c =>
        rw [cmpString] at h1 h2 ⊢
        by_cases hxy : x < y
        · by_cases hyz : y < z
          · rw [if_pos (by omega)]; omega
          · rw [if_neg hyz] at h2
            by_cases hzy : z < y
            · rw [if_pos hzy] at h2; omega
            · rw [if_pos (by omega)]; omega
        · rw [if_neg hxy] at h1
          by_cases hyx : y < x
          · rw [if_pos hyx] at h1; omega
          · rw [if_neg hyx] at h1
            have hxy' : x = y := by omega
            subst hxy'
            by_cases hxz : x < z
            · rw [if_pos hxz]; omega
            · rw [if_neg hxz] at h2 ⊢
              by_cases hzx : z < x
              · rw [if_pos hzx] at h2; omega
              · rw [if_neg hzx] at h2 ⊢
                exact ih h1 h2

theorem cmpString_antisymm {a b : GoString} (h1 : cmpString a b ≤ 0) (h2 : cmpString b a ≤ 0) :
    a = b := by
  rw [cmpString_swap] at h2
  exact cmpString_eq_zero (by omega)

theorem ptrgmLE_iff {a b : posTrgm} :
    ptrgmLE a b ↔ cmpString a.trg b.trg < 0 ∨ (cmpString a.trg b.trg = 0 ∧ a.index ≤ b.index) := by
  unfold ptrgmLE compPtrgm cmpInt
  by_cases h : cmpString a.trg b.trg = 0
  · simp only [h, ne_eq, not_true_eq_false, if_false, lt_self_iff_false, true_and, false_or]
    split
    · omega
    · split <;> omega
  · simp only [ne_eq, h, not_false_eq_true, if_true, false_and, or_false]
    omega

theorem ptrgmLE_trg {a b : posTrgm} (h : ptrgmLE a b) : cmpString a.trg b.trg ≤ 0 := by
  rcases ptrgmLE_iff.1 h with h | ⟨h, -⟩ <;> omega

instance : IsTotal posTrgm ptrgmLE where
  total a b := by
    rw [ptrgmLE_iff, ptrgmLE_iff, cmpString_swap a.trg b.trg]
    omega

instance : IsTrans posTrgm ptrgmLE where
  trans a b c hab hbc := by
    have h1 := ptrgmLE_trg hab
    have h2 := ptrgmLE_trg hbc
    have h3 := cmpString_trans h1 h2
    rw [ptrgmLE_iff] at hab hbc ⊢
    by_cases h : cmpString a.trg c.trg = 0
    · have hac := cmpString_eq_zero h
      have hab' : a.trg = b.trg := by
        apply cmpString_antisymm h1
        rw [hac]; exact h2
      have hbc' : b.trg = c.trg := by rw [← hab', hac]
      rw [hab', cmpString_self] at hab
      rw [hbc', cmpString_self] at hbc
      right
      exact ⟨h, by omega⟩
    · left; omega

theorem sorted_sortStable (l : List posTrgm) : (sortStable l).Sorted ptrgmLE :=
  List.sorted_insertionSort ptrgmLE l

theorem mem_makePositionalTrgm_first {trg1 trg2 : List GoString} {t : GoString}
    (h : t ∈ trg1) : (⟨t, -1⟩ : posTrgm) ∈ makePositionalTrgm trg1 trg2 := by
  unfold makePositionalTrgm
  exact List.mem_append_left _ (List.mem_map.2 ⟨t, h, rfl⟩)

theorem trg_mem_of_mem_makePositionalTrgm {trg1 trg2 : List GoString} {p : posTrgm}
    (hp : p ∈ makePositionalTrgm trg1 trg2) (hidx : 0 ≤ p.index) : p.trg ∈ trg2 := by
  unfold makePositionalTrgm at hp
  rcases List.mem_append.1 hp with h | h
  · obtain ⟨t, -, rfl⟩ := List.mem_map.1 h
    simp at hidx
  · obtain ⟨q, hq, rfl⟩ := List.mem_map.1 h
    exact List.snd_mem_of_mem_enum hq

/-- In the sorted `ptrg`, an entry of the second string whose trigram occurs in
the first string is never the first entry of its group. -/
theorem sorted_matched_not_first {trg1 trg2 : List GoString} {i : Nat}
    (hi : i < (sortStable (makePositionalTrgm trg1 trg2)).length)
    (hidx : 0 ≤ ((sortStable (makePositionalTrgm trg1 trg2))[i]).index)
    (hmem : ((sortStable (makePositionalTrgm trg1 trg2))[i]).trg ∈ trg1) :
    0 < i ∧ ∃ hi1 : i - 1 < (sortStable (makePositionalTrgm trg1 trg2)).length,
      cmpString ((sortStable (makePositionalTrgm trg1 trg2))[i - 1]).trg
        ((sortStable (makePositionalTrgm trg1 trg2))[i]).trg = 0 := by
  generalize hS : sortStable (makePositionalTrgm trg1 trg2) = S at hi hidx hmem ⊢
  have hsorted : S.Sorted ptrgmLE := hS ▸ sorted_sortStable _
  have hpw := List.pairwise_iff_getElem.1 hsorted
  have he : (⟨S[i].trg, -1⟩ : posTrgm) ∈ S := by
    have := @mem_makePositionalTrgm_first trg1 trg2 _ hmem
    rw [← List.mem_insertionSort ptrgmLE] at this
    have hS' : List.insertionSort ptrgmLE (makePositionalTrgm trg1 trg2) = S := hS
    rw [hS'] at this
    exact this
  obtain ⟨k, hk, hke⟩ := List.getElem_of_mem he
  have hktrg : S[k].trg = S[i].trg := by rw [hke]
  have hkidx : S[k].index = -1 := by rw [hke]
  have hki : k < i := by
    by_contra hnot
    have hne : k ≠ i := by
      intro e; subst e; omega
    have := hpw i k hi hk (by omega)
    rw [ptrgmLE_iff, hktrg, cmpString_self] at this
    omega
  refine ⟨by omega, by omega, ?_⟩
  by_cases hk1 : k = i - 1
  · subst hk1
    rw [hktrg, cmpString_self]
  · have h1 := ptrgmLE_trg (hpw k (i - 1) hk (by omega) (by omega))
    have h2 := ptrgmLE_trg (hpw (i - 1) i (by omega) hi (by omega))
    rw [hktrg] at h1
    rw [cmpString_antisymm h2 h1, cmpString_self]

theorem set?_eq_some {α : Type} {xs ys : List α} {k : Int} {v : α}
    (h : set? xs k v = some ys) : 0 ≤ k ∧ k.toNat < xs.length ∧ ys = xs.set k.toNat v := by
  unfold set? at h
  split at h
  · next hk => cases h; exact ⟨hk.1, hk.2, rfl⟩
  · cases h

theorem isFound_set_self {f : List Bool} {k : Int} (h0 : 0 ≤ k) (h1 : k.toNat < f.length) :
    isFound (f.set k.toNat true) k = true := by
  rw [isFound_true_iff]
  refine ⟨h0, by simpa using h1, ?_⟩
  simp [List.getD_eq_getElem?_getD, List.getElem?_set_self h1]

theorem isFound_set_mono {f : List Bool} {v : Int} (n : Nat) (h : isFound f v = true) :
    isFound (f.set n true) v = true := by
  rw [isFound_true_iff] at h ⊢
  obtain ⟨h0, h1, h2⟩ := h
  refine ⟨h0, by simpa using h1, ?_⟩
  by_cases hn : n = v.toNat
  · subst hn
    simp [List.getD_eq_getElem?_getD, List.getElem?_set_self h1]
  · simp only [List.getD_eq_getElem?_getD] at h2 ⊢
    rw [List.getElem?_set_ne hn]
    exact h2

theorem mergeStep_allMatched {S : List posTrgm} {st st' : MergeState} {i : Nat}
    (hstep : mergeStep S st i = some st')
    (hprop : ∀ hi : i < S.length, 0 ≤ (S[i]).index →
      0 < i ∧ ∃ hi1 : i - 1 < S.length, cmpString (S[i - 1]).trg (S[i]).trg = 0)
    (hpre : (i = 0 ∧ st.j = 0 ∧ ∀ v ∈ st.trg2indexes, v = 0) ∨ AllMatched st) :
    AllMatched st' := by
  unfold mergeStep at hstep
  obtain ⟨st1, h1, hstep⟩ := Option.bind_eq_some.1 hstep
  unfold assignEntry at hstep
  obtain ⟨p, hp, hstep⟩ := Option.bind_eq_some.1 hstep
  obtain ⟨hi, hpe⟩ := List.getElem?_eq_some_iff.1 hp
  have hfirst : st1.found = st.found ∧ st1.trg2indexes = st.trg2indexes ∧
      (st1.j = st.j ∨ (0 < i ∧ ∀ hi1 : i - 1 < S.length,
        cmpString (S[i - 1]).trg (S[i]).trg ≠ 0)) := by
    unfold groupBoundary at h1
    by_cases hpos : 0 < i
    · rw [if_pos hpos] at h1
      obtain ⟨a, ha, h1⟩ := Option.bind_eq_some.1 h1
      obtain ⟨b, hb, h1⟩ := Option.bind_eq_some.1 h1
      obtain ⟨hi1, hae⟩ := List.getElem?_eq_some_iff.1 ha
      rw [hp] at hb
      cases hb
      by_cases hne : cmpString a.trg p.trg ≠ 0
      · rw [if_pos hne] at h1
        obtain ⟨fl, -, h1⟩ := Option.bind_eq_some.1 h1
        cases h1
        refine ⟨rfl, rfl, Or.inr ⟨hpos, fun _ => ?_⟩⟩
        rw [hae, hpe]; exact hne
      · rw [if_neg hne] at h1
        cases h1; exact ⟨rfl, rfl, Or.inl rfl⟩
    · rw [if_neg hpos] at h1
      cases h1; exact ⟨rfl, rfl, Or.inl rfl⟩
  obtain ⟨hf1, ht1, hj1⟩ := hfirst
  by_cases hidx : 0 ≤ p.index
  · rw [if_pos hidx] at hstep
    obtain ⟨tt, htt, hstep⟩ := Option.bind_eq_some.1 hstep
    cases hstep
    obtain ⟨-, -, rfl⟩ := set?_eq_some htt
    obtain ⟨hpos, hi1, hcmp⟩ := hprop hi (by rw [hpe]; exact hidx)
    have hj : st1.j = st.j := by
      rcases hj1 with h | ⟨-, h⟩
      · exact h
      · exact absurd hcmp (h hi1)
    have hall : AllMatched st := by
      rcases hpre with ⟨h0, -⟩ | h
      · omega
      · exact h
    refine ⟨?_, ?_⟩
    · show isFound st1.found st1.j = true
      rw [hf1, hj]; exact hall.1
    · intro v hv
      show isFound st1.found v = true
      rw [hf1]
      rcases List.mem_or_eq_of_mem_set hv with hv | hv
      · rw [ht1] at hv; exact hall.2 v hv
      · rw [hv, hj]; exact hall.1
  · rw [if_neg hidx] at hstep
    obtain ⟨ff, hff, hstep⟩ := Option.bind_eq_some.1 hstep
    cases hstep
    obtain ⟨h0, hlt, rfl⟩ := set?_eq_some hff
    refine ⟨isFound_set_self h0 hlt, ?_⟩
    intro v hv
    show isFound (st1.found.set st1.j.toNat true) v = true
    have hv' : v ∈ st.trg2indexes := by rw [← ht1]; exact hv
    rcases hpre with ⟨hi0, hj0, hz⟩ | hall
    · have hj : st1.j = 0 := by
        rcases hj1 with h | ⟨h, -⟩
        · rw [h, hj0]
        · omega
      rw [hz v hv', ← hj]
      exact isFound_set_self h0 hlt
    · rw [hf1]
      exact isFound_set_mono _ (hall.2 v hv')

theorem mergeFold_allMatched {S : List posTrgm} {len1 len2 : Nat}
    (hprop : ∀ i, ∀ hi : i < S.length, 0 ≤ (S[i]).index →
      0 < i ∧ ∃ hi1 : i - 1 < S.length, cmpString (S[i - 1]).trg (S[i]).trg = 0)
    (n : Nat) {st : MergeState}
    (h : (List.range n).foldlM (mergeStep S)
        ({ trg2indexes := List.replicate len2 0, found := List.replicate len1 false,
           ulen1 := 0, j := 0 } : MergeState) = some st) :
    (n = 0 ∧ st.j = 0 ∧ ∀ v ∈ st.trg2indexes, v = 0) ∨ AllMatched st := by
  induction n generalizing st with
  | zero =>
    cases h
    exact Or.inl ⟨rfl, rfl, fun v hv => (List.mem_replicate.1 hv).2⟩
  | succ n ih =>
    rw [List.range_succ, List.foldlM_append] at h
    obtain ⟨st0, h0, h⟩ := Option.bind_eq_some.1 h
    have hstep : mergeStep S st0 n = some st := by simpa using h
    exact Or.inr (mergeStep_allMatched hstep (hprop n) (ih h0))

/-- When every trigram of `trg2` occurs in `trg1`, the sort-and-group loop
leaves every position of `trg2` marked as matched. -/
theorem mergeTrgm_allMatched {trg1 trg2 : List GoString} {m : MergeState}
    (h1 : trg1 ≠ []) (hsub : ∀ t ∈ trg2, t ∈ trg1) (hm : mergeTrgm trg1 trg2 = some m) :
    ∀ v ∈ m.trg2indexes, isFound m.found v = true := by
  unfold mergeTrgm mergeLoop at hm
  simp only [Option.bind_eq_bind] at hm
  obtain ⟨st, hst, hm⟩ := Option.bind_eq_some.1 hm
  obtain ⟨fl, -, hm⟩ := Option.bind_eq_some.1 hm
  cases hm
  have hprop : ∀ i, ∀ hi : i < (sortStable (makePositionalTrgm trg1 trg2)).length,
      0 ≤ ((sortStable (makePositionalTrgm trg1 trg2))[i]).index →
      0 < i ∧ ∃ hi1 : i - 1 < (sortStable (makePositionalTrgm trg1 trg2)).length,
        cmpString ((sortStable (makePositionalTrgm trg1 trg2))[i - 1]).trg
          ((sortStable (makePositionalTrgm trg1 trg2))[i]).trg = 0 := by
    intro i hi hidx
    apply sorted_matched_not_first hi hidx
    apply hsub
    have hmem : (sortStable (makePositionalTrgm trg1 trg2))[i] ∈
        makePositionalTrgm trg1 trg2 :=
      (List.mem_insertionSort ptrgmLE).1 (List.getElem_mem hi)
    exact trg_mem_of_mem_makePositionalTrgm hmem hidx
  rcases mergeFold_allMatched hprop trg1.length hst with ⟨h0, -⟩ | hall
  · exact absurd (List.length_eq_zero.1 h0) h1
  · exact hall.2

end GoTrgm

/-! ## The whole computation on a non-empty first string -/

namespace GoTrgm

/-- For a non-empty first string the whole computation returns a value: the
sort-and-group loop hands a well-formed input to the scanner, and the result
is what the scanner returns on it. -/
theorem calcWordSimilarity_spec {s1 : GoString} (s2 : GoString) (h : s1 ≠ []) :
    ∃ m r, mergeTrgm (generateTrgmOnly s1) (generateTrgmOnly s2) = some m ∧
      WellFormed m.trg2indexes m.found m.ulen1 (generateTrgmOnly s1).length
        (generateTrgmOnly s2).length ∧
      calcWordSimilarity s1 s2 = some r ∧ SpanVal m.trg2indexes m.found m.ulen1 r ∧
      ((∃ u, u < m.trg2indexes.length ∧ isFound m.found (m.trg2indexes.getD u 0) = true) →
        0 < r) := by
  obtain ⟨m, hm, hwf⟩ := mergeTrgm_wellFormed (generateTrgmOnly s2) (generateTrgmOnly_ne_nil h)
  obtain ⟨r, hr, hval, hpos⟩ := scan_spec true hwf
  refine ⟨m, r, hm, hwf, ?_, hval, hpos⟩
  unfold calcWordSimilarity
  simp only [hm, Option.bind_eq_bind, Option.some_bind]
  exact hr

/-- For a non-empty first string, `calcWordSimilarity` returns a value between
0 and 1. -/
theorem calcWordSimilarity_bounds {s1 : GoString} (s2 : GoString) (h : s1 ≠ []) :
    ∃ r, calcWordSimilarity s1 s2 = some r ∧ 0 ≤ r ∧ r ≤ 1 := by
  obtain ⟨m, r, -, hwf, hr, hval, -⟩ := calcWordSimilarity_spec s2 h
  exact ⟨r, hr, hval.bounds hwf.2.2.2⟩

end GoTrgm

/-! ## Trigram extraction against its reference definition -/

namespace GoTrgm

theorem take3_drop {p : GoString} {i : Nat} (h : i + 2 < p.length) :
    (p.drop i).take 3 = [p.getD i 0, p.getD (i + 1) 0, p.getD (i + 2) 0] := by
  have h0 : i < p.length := by omega
  have h1 : i + 1 < p.length := by omega
  have e0 : p.getD i 0 = p[i] := by
    simp [List.getD_eq_getElem?_getD, List.getElem?_eq_getElem h0]
  have e1 : p.getD (i + 1) 0 = p[i + 1] := by
    simp [List.getD_eq_getElem?_getD, List.getElem?_eq_getElem h1]
  have e2 : p.getD (i + 2) 0 = p[i + 2] := by
    simp [List.getD_eq_getElem?_getD, List.getElem?_eq_getElem h]
  rw [e0, e1, e2, List.drop_eq_getElem_cons h0, List.drop_eq_getElem_cons h1,
    List.drop_eq_getElem_cons h]
  rfl

theorem makeTrigrams_padded (w : GoString) :
    makeTrigrams ([32, 32] ++ w ++ [32, 32]) = wordTrigramsRef w := by
  unfold makeTrigrams wordTrigramsRef
  have hl : ([32, 32] ++ w ++ [32, 32] : GoString).length = w.length + 4 := by simp
  rw [if_neg (by rw [hl]; omega)]
  rw [show ([32, 32] ++ w ++ [32, 32] : GoString).length - 3 + 1
    = ([32, 32] ++ w ++ [32, 32] : GoString).length - 2 by rw [hl]; omega]
  apply List.map_congr_left
  intro i hi
  rw [List.mem_range] at hi
  exact take3_drop (by omega)

theorem generateTrgmOnly_eq_flatMap {s : GoString} (h : s ≠ []) :
    generateTrgmOnly s =
      (splitSpace (toLower s)).flatMap fun w => makeTrigrams ([32, 32] ++ w ++ [32, 32]) := by
  unfold generateTrgmOnly
  have hl : ¬ s.length = 0 := fun h' => h (List.length_eq_zero.1 h')
  rw [if_neg hl]
  simp only [foldl_append_eq_flatMap, List.nil_append, List.flatMap_map]

theorem length_wordTrigramsRef (w : GoString) : (wordTrigramsRef w).length = w.length + 2 := by
  unfold wordTrigramsRef
  simp

theorem length_of_mem_wordTrigramsRef {w t : GoString} (h : t ∈ wordTrigramsRef w) :
    t.length = 3 := by
  unfold wordTrigramsRef at h
  obtain ⟨i, -, rfl⟩ := List.mem_map.1 h
  rfl

theorem generateTrgmOnly_eq_generateTrgmRef {s : GoString} (h : s ≠ []) :
    generateTrgmOnly s = generateTrgmRef s := by
  rw [generateTrgmOnly_eq_flatMap h]
  unfold generateTrgmRef
  congr 1
  funext w
  exact makeTrigrams_padded w

theorem toLowerByte_eq_space {c : Nat} : toLowerByte c = 32 ↔ c = 32 := by
  unfold toLowerByte
  split <;> omega

theorem toLower_spaceFree {a : GoString} (h : 32 ∉ a) : 32 ∉ toLower a := by
  unfold toLower
  intro hm
  obtain ⟨c, hc, hc'⟩ := List.mem_map.1 hm
  rw [toLowerByte_eq_space] at hc'
  exact h (hc' ▸ hc)

theorem splitSpace_spaceFree {a : GoString} (h : 32 ∉ a) : splitSpace a = [a] := by
  induction a with
  | nil => rfl
  | cons c a ih =>
    have hc : c ≠ 32 := fun e => h (e ▸ List.mem_cons_self _ _)
    have ha : 32 ∉ a := fun e => h (List.mem_cons_of_mem _ e)
    rw [splitSpace, if_neg hc, ih ha]

theorem splitSpace_append_space {a : GoString} (rest : GoString) (h : 32 ∉ a) :
    splitSpace (a ++ 32 :: rest) = a :: splitSpace rest := by
  induction a with
  | nil => simp [splitSpace]
  | cons c a ih =>
    have hc : c ≠ 32 := fun e => h (e ▸ List.mem_cons_self _ _)
    have ha : 32 ∉ a := fun e => h (List.mem_cons_of_mem _ e)
    rw [List.cons_append, splitSpace, if_neg hc, ih ha]

theorem generateTrgmOnly_spaceFree {a : GoString} (h0 : a ≠ []) (h : 32 ∉ a) :
    generateTrgmOnly a = makeTrigrams ([32, 32] ++ toLower a ++ [32, 32]) := by
  rw [generateTrgmOnly_eq_flatMap h0, splitSpace_spaceFree (toLower_spaceFree h)]
  simp

end GoTrgm

/-! ## The arguments of the calls of calcSml -/

namespace GoTrgm

theorem calcSmlChecked_eq {count len1 len2 : Int} (h1 : 1 ≤ count) (h2 : count ≤ len1)
    (h3 : count ≤ len2) : calcSmlChecked count len1 len2 = some (calcSml count len1 len2) := by
  unfold calcSmlChecked
  rw [if_pos ⟨h1, h2, h3⟩]

theorem calcSmlChecked_some {count len1 len2 : Int} {q : ℚ}
    (h : calcSmlChecked count len1 len2 = some q) :
    1 ≤ count ∧ count ≤ len1 ∧ count ≤ len2 ∧ 1 ≤ len1 + len2 - count ∧
      q = calcSml count len1 len2 := by
  unfold calcSmlChecked at h
  split at h
  · next hg =>
    cases h
    exact ⟨hg.1, hg.2.1, hg.2.2, by omega, rfl⟩
  · cases h

theorem winCount_guard {t : List Int} {f : List Bool} {ulen1 : Int} {p i kn : Nat}
    (hu1 : ulen1 = ((f.count true : Nat) : Int)) (hk : t[i]? = some (kn : Int))
    (hfound : isFound f (kn : Int) = true) (hp : p ≤ i) :
    1 ≤ winCount t f p (i + 1) ∧ winCount t f p (i + 1) ≤ ulen1 ∧
      winCount t f p (i + 1) ≤ winCard t p (i + 1) :=
  ⟨winCount_pos (mem_winIds.2 ⟨i, hp, by omega, hk⟩) hfound,
    hu1 ▸ winCount_le_count _ _ _ _, winCount_le_winCard _ _ _ _⟩

theorem shrinkCommitChecked_eq {ulen1 : Int} {s : ShrinkState} (h1 : 1 ≤ s.tmpCount)
    (h2 : s.tmpCount ≤ ulen1) (h3 : s.tmpCount ≤ s.tmpUlen2) :
    shrinkCommitChecked ulen1 s = some (shrinkCommit ulen1 s) := by
  unfold shrinkCommitChecked shrinkCommit
  rw [calcSmlChecked_eq h1 h2 h3, Option.some_bind]

theorem shrinkLoopChecked_eq {c : Bool} {t : List Int} {f : List Bool} {ulen1 : Int}
    {len1 lo i kn : Nat} {c0 : ℚ} {lastPos : List Int}
    (hf : f.length = len1) (ht : IdsOK t len1) (hit : i < t.length)
    (hu1 : ulen1 = ((f.count true : Nat) : Int)) (hk : t[i]? = some (kn : Int))
    (hfound : isFound f (kn : Int) = true)
    (hl : LastPosOK t len1 lastPos lo (i + 1)) (n : Nat) {s : ShrinkState} {l p : Nat}
    (hn : n + p = i) (h : ShrinkInv t f ulen1 lo i c0 s l p) :
    shrinkLoopChecked c t f lastPos ulen1 n s = shrinkLoop c t f lastPos ulen1 n s := by
  induction n generalizing s l p with
  | zero => rfl
  | succ n ih =>
    obtain ⟨g1, g2, g3⟩ := winCount_guard (f := f) hu1 hk hfound (show p ≤ i by omega)
    rw [← h.htc] at g1 g2 g3
    rw [← h.htu] at g3
    obtain ⟨l1, h1⟩ := shrinkCommit_inv h
    rw [shrinkLoopChecked, shrinkLoop, shrinkCommitChecked_eq g1 g2 g3, Option.some_bind]
    by_cases hb : c = true ∧ wordSimilarityThreshold ≤ (shrinkCommit ulen1 s).smlrCur
    · rw [if_pos hb, if_pos hb]
    · rw [if_neg hb, if_neg hb]
      obtain ⟨s2, hs2, h2⟩ := shrinkDrop_inv hf ht hit hl h1 (by omega)
      rw [hs2, Option.some_bind, Option.some_bind]
      exact ih (by omega) h2

theorem matchedStepChecked_eq {c : Bool} {t : List Int} {f : List Bool} {ulen1 : Int}
    {len1 lo i kn : Nat} {st : ScanState}
    (hf : f.length = len1) (ht : IdsOK t len1) (hu1 : ulen1 = ((f.count true : Nat) : Int))
    (hit : i < t.length) (hk : t[i]? = some (kn : Int))
    (hfound : isFound f (kn : Int) = true) (hlo : lo ≤ i)
    (hlower : st.lower = (lo : Int)) (hupper : st.upper = (i : Int))
    (hulen2 : st.ulen2 = winCard t lo (i + 1)) (hcount : st.count = winCount t f lo (i + 1))
    (hlast : LastPosOK t len1 st.lastPos lo (i + 1)) :
    matchedStepChecked c t f ulen1 st = matchedStep c t f ulen1 st := by
  obtain ⟨g1, g2, g3⟩ := winCount_guard (f := f) hu1 hk hfound hlo
  rw [← hcount] at g1 g2 g3
  rw [← hulen2] at g3
  have hinit : ShrinkInv t f ulen1 lo i (calcSml st.count ulen1 st.ulen2)
      (shrinkInit ulen1 st) lo lo :=
    ⟨⟨hlower, le_rfl, hlo, hulen2, hcount, rfl, le_rfl⟩, hlower, le_rfl, hlo, hulen2, hcount⟩
  have hn : (st.upper - st.lower).toNat = i - lo := by rw [hlower, hupper]; omega
  have hinitc : shrinkInitChecked ulen1 st = some (shrinkInit ulen1 st) := by
    unfold shrinkInitChecked shrinkInit
    rw [calcSmlChecked_eq g1 g2 g3, Option.some_bind]
  unfold matchedStepChecked matchedStep
  rw [hinitc, Option.some_bind, hn,
    shrinkLoopChecked_eq hf ht hit hu1 hk hfound hlast (i - lo) (by omega) hinit]

theorem scanUpdate_found {t : List Int} {f : List Bool} {ulen1 : Int} {len1 lo i kn : Nat}
    {st st1 : ScanState}
    (hf : f.length = len1) (hk : t[i]? = some (kn : Int)) (hkn : kn < len1)
    (hfound : isFound f (kn : Int) = true) (h : ScanInv t f ulen1 len1 i st lo)
    (hst1 : scanUpdate f (kn : Int) (i : Int) st = some st1) :
    st1.ulen2 = winCard t lo (i + 1) ∧ st1.count = winCount t f lo (i + 1) ∧
      LastPosOK t len1 st1.lastPos lo (i + 1) ∧ st1.lower = st.lower := by
  obtain ⟨st', hst', hu, hc, hl, hlow, -⟩ :=
    touch_spec hf h.hlo hk hkn h.hlast h.hulen2 h.hcount
  have htouch : scanUpdate f (kn : Int) (i : Int) st = touch f (kn : Int) (i : Int) st := by
    unfold scanUpdate
    by_cases hge : 0 ≤ st.lower
    · rw [if_pos hge]
    · rw [if_neg hge, idx?_found (by rw [hf]; exact hkn), Option.some_bind, if_pos hfound]
  rw [htouch, hst'] at hst1
  cases hst1
  exact ⟨hu, hc, hl, hlow⟩

theorem scanStepChecked_eq {c : Bool} {t : List Int} {f : List Bool} {ulen1 : Int}
    {len1 lo i : Nat} {st : ScanState}
    (hf : f.length = len1) (ht : IdsOK t len1) (hu1 : ulen1 = ((f.count true : Nat) : Int))
    (hit : i < t.length) (h : ScanInv t f ulen1 len1 i st lo) :
    scanStepChecked c t f ulen1 (i : Int) st = scanStep c t f ulen1 (i : Int) st := by
  obtain ⟨kn, hkn, hk⟩ := ht i hit
  have hidf : idx? f (kn : Int) = some (isFound f (kn : Int)) :=
    idx?_found (by rw [hf]; exact hkn)
  unfold scanStepChecked scanStep
  rw [idx?_natCast, hk, Option.some_bind, Option.some_bind]
  cases hsu : scanUpdate f (kn : Int) (i : Int) st with
  | none => rfl
  | some st1 =>
    rw [Option.some_bind, Option.some_bind, hidf, Option.some_bind, Option.some_bind]
    by_cases hfd : isFound f (kn : Int) = true
    · rw [if_pos hfd, if_pos hfd]
      obtain ⟨hu, hc, hl, hlow⟩ := scanUpdate_found hf hk hkn hfd h hsu
      unfold openWindow
      by_cases hneg : st1.lower = -1
      · rw [if_pos hneg]
        have hloi : lo = i := by
          rcases h.hlower with ⟨-, e⟩ | ⟨e, -⟩
          · exact e
          · rw [hlow, e] at hneg; omega
        subst hloi
        exact matchedStepChecked_eq hf ht hu1 hit hk hfd le_rfl rfl rfl
          (winCard_single hk).symm hc hl
      · rw [if_neg hneg]
        have hlow' : st1.lower = (lo : Int) := by
          rcases h.hlower with ⟨e, -⟩ | ⟨e, -⟩
          · rw [hlow, e] at hneg; exact absurd rfl hneg
          · rw [hlow, e]
        exact matchedStepChecked_eq hf ht hu1 hit hk hfd h.hlo hlow' rfl hu hc hl
    · rw [if_neg hfd, if_neg hfd]

theorem scanLoopChecked_eq {c : Bool} {t : List Int} {f : List Bool} {ulen1 : Int} {len1 : Nat}
    (hf : f.length = len1) (ht : IdsOK t len1) (hu1 : ulen1 = ((f.count true : Nat) : Int))
    (n : Nat) {i lo : Nat} {st : ScanState} (hn : n + i = t.length)
    (h : ScanInv t f ulen1 len1 i st lo) :
    scanLoopChecked c t f ulen1 n (i : Int) st = scanLoop c t f ulen1 n (i : Int) st := by
  induction n generalizing i lo st with
  | zero => rfl
  | succ n ih =>
    obtain ⟨r, hr, hpost⟩ := scanStep_spec (c := c) hf ht hu1 (show i < t.length by omega) h
    rw [scanLoopChecked, scanLoop, scanStepChecked_eq hf ht hu1 (by omega) h, hr,
      Option.some_bind, Option.some_bind]
    cases r with
    | inl v => rfl
    | inr st1 =>
      obtain ⟨lo1, h1⟩ := hpost
      have := ih (i := i + 1) (by omega) h1
      exact_mod_cast this

end GoTrgm

/-! ## A span the forward-only search misses -/

namespace GoTrgm

/-- The forward-only search can miss a span above the threshold even without
the threshold breaks: on this well-formed input the span `[1,10]` has
similarity 2/3, while the scanner and its exhaustive variant both return
4/7. -/
theorem exhaustive_misses_span :
    WellFormed [2, 6, 2, 8, 7, 4, 1, 5, 2, 8, 0, 2, 4, 4]
        [true, true, false, true, true, true, true, true, false] 7 9 14 ∧
      maxSpanSml [2, 6, 2, 8, 7, 4, 1, 5, 2, 8, 0, 2, 4, 4]
        [true, true, false, true, true, true, true, true, false] 7 = 2 / 3 ∧
      iterateWordSimilarity [2, 6, 2, 8, 7, 4, 1, 5, 2, 8, 0, 2, 4, 4]
        [true, true, false, true, true, true, true, true, false] 7 9 14 = some (4 / 7) ∧
      iterateWordSimilarityExhaustive [2, 6, 2, 8, 7, 4, 1, 5, 2, 8, 0, 2, 4, 4]
        [true, true, false, true, true, true, true, true, false] 7 9 14 = some (4 / 7) := by
  refine ⟨by decide, by decide!, by decide!, by decide!⟩

end GoTrgm

/-! ## The claims of the specification, settled on the code -/

namespace GoTrgm

/-- C1: `calcWordSimilarity("banana", "bananas")` evaluates to 3/4, which is
farther than 1e-6 from the 0.833333 that `main` announces as the expected
result. -/
theorem calcWordSimilarity_banana_bananas :
    calcWordSimilarity (str "banana") (str "bananas") = some (3 / 4) ∧
      ¬ (|(3 / 4 : ℚ) - 833333 / 1000000| ≤ 1 / 1000000) := by
  refine ⟨by decide!, ?_⟩
  norm_num [abs_le]

/-- C2, counterexample: the non-empty string "a" has three trigrams, and
`calcWordSimilarity("a", "a")` is 1/2, not 1. -/
theorem calcWordSimilarity_self_a :
    str "a" ≠ [] ∧ (generateTrgmOnly (str "a")).length = 3 ∧
      calcWordSimilarity (str "a") (str "a") = some (1 / 2) ∧
      calcWordSimilarity (str "a") (str "a") ≠ some 1 := by
  refine ⟨by decide, by decide, by decide!, by decide!⟩

/-- C3: with an empty first string and the second string "anything" the call
panics (the read of `found[j]` at line 48, `found` being empty), so no value
in the range 0..1 is returned. -/
theorem calcWordSimilarity_empty_anything_no_value :
    calcWordSimilarity (str "") (str "anything") = none ∧
      ¬ ∃ r : ℚ, calcWordSimilarity (str "") (str "anything") = some r ∧ 0 ≤ r ∧ r ≤ 1 := by
  have h : calcWordSimilarity (str "") (str "anything") = none := by decide!
  refine ⟨h, ?_⟩
  rintro ⟨r, hr, -⟩
  rw [h] at hr
  exact Option.noConfusion hr

/-- C4: for every second string, `calcWordSimilarity("", s2)` panics (the read
of `found[j]` at line 48 is out of range when `trg1` is empty) instead of
returning 0. -/
theorem calcWordSimilarity_empty_first (s2 : GoString) :
    calcWordSimilarity [] s2 = none := by
  simp [calcWordSimilarity, generateTrgmOnly, mergeTrgm, mergeLoop, idx?]

/-- C6: "a" and "b" are non-empty and share no trigram, yet
`calcWordSimilarity("a", "b")` is 1/2, not 0. -/
theorem calcWordSimilarity_a_b :
    str "a" ≠ [] ∧ str "b" ≠ [] ∧
      (∀ t ∈ generateTrgmOnly (str "a"), t ∉ generateTrgmOnly (str "b")) ∧
      calcWordSimilarity (str "a") (str "b") = some (1 / 2) := by
  refine ⟨by decide, by decide, by decide, by decide!⟩

/-- C7, counterexample: on the well-formed input with `trg2indexes = [0,1,2,3,4]`
and all five identities matched, the scanner returns 4/5 while the maximum
over the spans that end at a matched position is 1. -/
theorem iterateWordSimilarity_not_max :
    WellFormed [0, 1, 2, 3, 4] [true, true, true, true, true] 5 5 5 ∧
      iterateWordSimilarity [0, 1, 2, 3, 4] [true, true, true, true, true] 5 5 5 = some (4 / 5) ∧
      maxSpanSml [0, 1, 2, 3, 4] [true, true, true, true, true] 5 = 1 := by
  refine ⟨by decide, by decide!, by decide!⟩

/-- C8, counterexample: on the well-formed input with `trg2indexes = [0,1,2,3,4]`
and all five identities matched, the scanner returns 4/5 while its exhaustive
variant returns 1. -/
theorem iterateWordSimilarity_ne_exhaustive :
    WellFormed [0, 1, 2, 3, 4] [true, true, true, true, true] 5 5 5 ∧
      iterateWordSimilarity [0, 1, 2, 3, 4] [true, true, true, true, true] 5 5 5 = some (4 / 5) ∧
      iterateWordSimilarityExhaustive [0, 1, 2, 3, 4] [true, true, true, true, true] 5 5 5
        = some 1 := by
  refine ⟨by decide, by decide!, by decide!⟩

/-- C9: for `trg1` the trigrams of "a" and `trg2` the trigrams of "b", the
sort-and-group loop ends with `trg2indexes = [1,0,0]` and
`found = [true,false,true]`: position 1 of `trg2` is marked as matched
although its trigram does not occur in `trg1`. -/
theorem mergeTrgm_marks_absent_trigram :
    generateTrgmOnly (str "a") ≠ [] ∧
      mergeTrgm (generateTrgmOnly (str "a")) (generateTrgmOnly (str "b"))
        = some { trg2indexes := [1, 0, 0], found := [true, false, true], ulen1 := 2, j := 2 } ∧
      isFound [true, false, true] ([1, 0, 0].getD 1 0) = true ∧
      (generateTrgmOnly (str "b")).getD 1 [] ∉ generateTrgmOnly (str "a") := by
  refine ⟨by decide, by decide, by decide, by decide⟩

/-- C10: for `trg1` the trigrams of "banana" and `trg2` the trigrams of
"bananas", the sort-and-group loop ends with `ulen1 = 4`, while `trg1` has 7
distinct trigram values. -/
theorem mergeTrgm_ulen1_banana :
    generateTrgmOnly (str "banana") ≠ [] ∧
      (mergeTrgm (generateTrgmOnly (str "banana")) (generateTrgmOnly (str "bananas"))).map
        (fun m => m.ulen1) = some 4 ∧
      (generateTrgmOnly (str "banana")).dedup.length = 7 := by
  refine ⟨by decide, by decide, by decide⟩

/-- C5: for every non-empty first string, `calcWordSimilarity(s1, "")` returns
0: the sort-and-group loop does not panic, and the scanner has no position to
visit. -/
theorem calcWordSimilarity_empty_second (s1 : GoString) (h : s1 ≠ []) :
    calcWordSimilarity s1 [] = some 0 := by
  obtain ⟨m, hm, -⟩ := mergeTrgm_wellFormed [] (generateTrgmOnly_ne_nil h)
  unfold calcWordSimilarity
  simp only [generateTrgmOnly_nil, hm, Option.bind_eq_bind, Option.some_bind]
  rfl

/-- C5, witness: the non-empty string "anything" against the empty string. -/
theorem calcWordSimilarity_empty_second_witness :
    str "anything" ≠ [] ∧ calcWordSimilarity (str "anything") [] = some 0 :=
  ⟨by decide, calcWordSimilarity_empty_second (str "anything") (by decide)⟩

/-- C7, amended: on every well-formed scanner input `iterateWordSimilarity`
returns a value that is at most the maximum, over the spans that end at a
matched position, of `count / (ulen1 + ulen2 - count)`, and that is 0 exactly
when there is no such span. -/
theorem iterateWordSimilarity_le_maxSpanSml {t : List Int} {f : List Bool} {ulen1 : Int}
    {len1 len2 : Nat} (h : WellFormed t f ulen1 len1 len2) :
    ∃ r, iterateWordSimilarity t f ulen1 len1 len2 = some r ∧ r ≤ maxSpanSml t f ulen1 ∧
      (r = 0 ↔ matchedSpans t f = []) := by
  obtain ⟨r, hr, hval, hpos⟩ := scan_spec true h
  refine ⟨r, hr, hval.le_maxSpanSml, ?_⟩
  rw [matchedSpans_eq_nil_iff]
  constructor
  · intro h0 hex
    have := hpos hex
    rw [h0] at this
    exact lt_irrefl _ this
  · intro hno
    rcases hval with h0 | ⟨l, u, -, h2, h3, -⟩
    · exact h0
    · exact absurd ⟨u, h2, h3⟩ hno

/-- C7, witness: the well-formed input `trg2indexes = [0,1,0]`,
`found = [true,false]`. -/
theorem iterateWordSimilarity_le_maxSpanSml_witness :
    WellFormed [0, 1, 0] [true, false] 1 2 3 ∧
      ∃ r, iterateWordSimilarity [0, 1, 0] [true, false] 1 2 3 = some r ∧
        r ≤ maxSpanSml [0, 1, 0] [true, false] 1 ∧
        (r = 0 ↔ matchedSpans [0, 1, 0] [true, false] = []) :=
  ⟨by decide, iterateWordSimilarity_le_maxSpanSml (by decide)⟩

/-- C8, amended: on every well-formed scanner input `iterateWordSimilarity`
and its exhaustive variant both return; when the exhaustive value is below
the threshold 0.6 the two values are equal, and when it is at least 0.6 the
value of `iterateWordSimilarity` is at least 0.6 too. -/
theorem iterateWordSimilarity_vs_exhaustive {t : List Int} {f : List Bool} {ulen1 : Int}
    {len1 len2 : Nat} (h : WellFormed t f ulen1 len1 len2) :
    ∃ r x, iterateWordSimilarity t f ulen1 len1 len2 = some r ∧
      iterateWordSimilarityExhaustive t f ulen1 len1 len2 = some x ∧
      (x < wordSimilarityThreshold → r = x) ∧
      (wordSimilarityThreshold ≤ x → wordSimilarityThreshold ≤ r) := by
  obtain ⟨r, hr, -⟩ := scan_spec true h
  obtain ⟨x, hx, -⟩ := scan_spec false h
  refine ⟨r, x, hr, hx, ?_⟩
  rcases scanLoop_couple _ hr hx with e | ⟨h1, h2⟩
  · exact ⟨fun _ => e, fun hxx => e ▸ hxx⟩
  · exact ⟨fun hlt => absurd h2 (not_le.2 hlt), fun _ => h1⟩

/-- C8, witness: the well-formed input `trg2indexes = [0,1,1]`,
`found = [true,true,false]`. -/
theorem iterateWordSimilarity_vs_exhaustive_witness :
    WellFormed [0, 1, 1] [true, true, false] 2 3 3 ∧
      ∃ r x, iterateWordSimilarity [0, 1, 1] [true, true, false] 2 3 3 = some r ∧
        iterateWordSimilarityExhaustive [0, 1, 1] [true, true, false] 2 3 3 = some x ∧
        (x < wordSimilarityThreshold → r = x) ∧
        (wordSimilarityThreshold ≤ x → wordSimilarityThreshold ≤ r) :=
  ⟨by decide, iterateWordSimilarity_vs_exhaustive (by decide)⟩

/-- C2, amended: for every non-empty string `s`, `calcWordSimilarity(s, s)`
returns a value that is positive and at most 1. -/
theorem calcWordSimilarity_self_pos (s : GoString) (h : s ≠ []) :
    ∃ r, calcWordSimilarity s s = some r ∧ 0 < r ∧ r ≤ 1 := by
  obtain ⟨m, r, hm, hwf, hr, hval, hpos⟩ := calcWordSimilarity_spec s h
  refine ⟨r, hr, hpos ?_, (hval.bounds hwf.2.2.2).2⟩
  have hne := generateTrgmOnly_ne_nil h
  have hlen : 0 < m.trg2indexes.length := by
    rw [hwf.1]; exact List.length_pos.2 hne
  refine ⟨0, hlen, ?_⟩
  apply mergeTrgm_allMatched hne (fun t ht => ht) hm
  rw [List.getD_eq_getElem?_getD, List.getElem?_eq_getElem hlen]
  exact List.getElem_mem hlen

/-- C2, witness: the non-empty string "a". -/
theorem calcWordSimilarity_self_pos_witness :
    str "a" ≠ [] ∧ ∃ r, calcWordSimilarity (str "a") (str "a") = some r ∧ 0 < r ∧ r ≤ 1 :=
  ⟨by decide, calcWordSimilarity_self_pos (str "a") (by decide)⟩

/-- C13: `calcWordSimilarity("hello", "hello world")` is exactly 1. -/
theorem calcWordSimilarity_hello_hello_world :
    calcWordSimilarity (str "hello") (str "hello world") = some 1 := by
  decide!

/-- C14: "a" occurs in "a" bounded by the string edges and "b" shares no trigram
with "a", yet `calcWordSimilarity("a", "a")` is 1/2 and
`calcWordSimilarity("a", "a b")` is 1: appending the noise raised the value. -/
theorem calcWordSimilarity_noise_raises :
    (∀ t ∈ generateTrgmOnly (str "b"), t ∉ generateTrgmOnly (str "a")) ∧
      str "a" ++ str " " ++ str "b" = str "a b" ∧
      calcWordSimilarity (str "a") (str "a") = some (1 / 2) ∧
      calcWordSimilarity (str "a") (str "a b") = some 1 ∧
      ¬ ((1 : ℚ) / 2 ≥ 1) := by
  refine ⟨by decide, by decide, by decide!, by decide!, by norm_num⟩

/-- C15: on every well-formed scanner input `iterateWordSimilarity` returns a
value between 0 and 1. -/
theorem iterateWordSimilarity_range {t : List Int} {f : List Bool} {ulen1 : Int}
    {len1 len2 : Nat} (h : WellFormed t f ulen1 len1 len2) :
    ∃ r, iterateWordSimilarity t f ulen1 len1 len2 = some r ∧ 0 ≤ r ∧ r ≤ 1 := by
  obtain ⟨r, hr, hval, -⟩ := scan_spec true h
  exact ⟨r, hr, hval.bounds h.2.2.2⟩

/-- C15, witness: the well-formed input `trg2indexes = [1,0,2,1]`,
`found = [true,true,false]`. -/
theorem iterateWordSimilarity_range_witness :
    WellFormed [1, 0, 2, 1] [true, true, false] 2 3 4 ∧
      ∃ r, iterateWordSimilarity [1, 0, 2, 1] [true, true, false] 2 3 4 = some r ∧
        0 ≤ r ∧ r ≤ 1 :=
  ⟨by decide, iterateWordSimilarity_range (by decide)⟩

/-- C17: for every non-empty `trg1` and every `trg2`, the sort-and-group loop of
`calcWordSimilarity` ends without a panic and `found` has exactly `ulen1` true
entries. -/
theorem mergeTrgm_found_count {trg1 : List GoString} (trg2 : List GoString) (h : trg1 ≠ []) :
    ∃ m, mergeTrgm trg1 trg2 = some m ∧ ((m.found.count true : Nat) : Int) = m.ulen1 := by
  obtain ⟨m, hm, hwf⟩ := mergeTrgm_wellFormed trg2 h
  exact ⟨m, hm, hwf.2.2.2.symm⟩

/-- C17, witness: the trigrams of "banana" against those of "bananas". -/
theorem mergeTrgm_found_count_witness :
    generateTrgmOnly (str "banana") ≠ [] ∧
      ∃ m, mergeTrgm (generateTrgmOnly (str "banana")) (generateTrgmOnly (str "bananas")) = some m ∧
        ((m.found.count true : Nat) : Int) = m.ulen1 :=
  ⟨by decide, mergeTrgm_found_count _ (by decide)⟩

/-- C19: for every non-empty first string and every second string,
`calcWordSimilarity` returns a value: no slice access of `calcWordSimilarity`
or `iterateWordSimilarity` is out of range (an access out of range is `none`
in the model, and `none` propagates to the result). -/
theorem calcWordSimilarity_no_panic (s1 s2 : GoString) (h : s1 ≠ []) :
    ∃ m r, mergeTrgm (generateTrgmOnly s1) (generateTrgmOnly s2) = some m ∧
      iterateWordSimilarity m.trg2indexes m.found m.ulen1 (generateTrgmOnly s1).length
        (generateTrgmOnly s2).length = some r ∧
      calcWordSimilarity s1 s2 = some r := by
  obtain ⟨m, hm, hwf⟩ := mergeTrgm_wellFormed (generateTrgmOnly s2) (generateTrgmOnly_ne_nil h)
  obtain ⟨r, hr, -⟩ := scan_spec true hwf
  refine ⟨m, r, hm, hr, ?_⟩
  unfold calcWordSimilarity
  simp only [hm, Option.bind_eq_bind, Option.some_bind]
  exact hr

/-- C19, witness: "xyz" against "completely unrelated text". -/
theorem calcWordSimilarity_no_panic_witness :
    str "xyz" ≠ [] ∧
      ∃ m r, mergeTrgm (generateTrgmOnly (str "xyz"))
          (generateTrgmOnly (str "completely unrelated text")) = some m ∧
        iterateWordSimilarity m.trg2indexes m.found m.ulen1 (generateTrgmOnly (str "xyz")).length
          (generateTrgmOnly (str "completely unrelated text")).length = some r ∧
        calcWordSimilarity (str "xyz") (str "completely unrelated text") = some r :=
  ⟨by decide, calcWordSimilarity_no_panic _ _ (by decide)⟩

/-- C20: on every well-formed scanner input the value `iterateWordSimilarity`
returns is 0 or the similarity `c / (ulen1 + n - c)` of a span `[l, u]` with
`l ≤ u < len2` and `found[trg2indexes[u]]` true; hence it does not exceed the
maximum over these spans. -/
theorem iterateWordSimilarity_is_span_value {t : List Int} {f : List Bool} {ulen1 : Int}
    {len1 len2 : Nat} (h : WellFormed t f ulen1 len1 len2) :
    ∃ r, iterateWordSimilarity t f ulen1 len1 len2 = some r ∧
      (r = 0 ∨ ∃ l u, l ≤ u ∧ u < len2 ∧ isFound f (t.getD u 0) = true ∧
        r = spanSml t f ulen1 l u) ∧
      r ≤ maxSpanSml t f ulen1 := by
  obtain ⟨r, hr, hval, -⟩ := scan_spec true h
  refine ⟨r, hr, ?_, hval.le_maxSpanSml⟩
  rcases hval with h0 | ⟨l, u, h1, h2, h3, h4⟩
  · exact Or.inl h0
  · exact Or.inr ⟨l, u, h1, h.1 ▸ h2, h3, h4⟩

/-- C20, witness: the well-formed input `trg2indexes = [2,0,1,0]`,
`found = [true,false,true]`. -/
theorem iterateWordSimilarity_is_span_value_witness :
    WellFormed [2, 0, 1, 0] [true, false, true] 2 3 4 ∧
      ∃ r, iterateWordSimilarity [2, 0, 1, 0] [true, false, true] 2 3 4 = some r ∧
        (r = 0 ∨ ∃ l u, l ≤ u ∧ u < 4 ∧ isFound [true, false, true] ([2, 0, 1, 0].getD u 0) = true ∧
          r = spanSml [2, 0, 1, 0] [true, false, true] 2 l u) ∧
        r ≤ maxSpanSml [2, 0, 1, 0] [true, false, true] 2 :=
  ⟨by decide, iterateWordSimilarity_is_span_value (by decide)⟩

/-- C18, counterexample: on the well-formed input `trg2indexes = [4,5,3,1,4]`,
`found = [true,true,false,true,true,false]` the span `[2,4]` ends at a matched
position and has similarity 3/4, above 0.6, while the scanner returns 3/5,
which is not above 0.6. -/
theorem iterateWordSimilarity_misses_span :
    WellFormed [4, 5, 3, 1, 4] [true, true, false, true, true, false] 4 6 5 ∧
      isFound [true, true, false, true, true, false] ([4, 5, 3, 1, 4].getD 4 0) = true ∧
      spanSml [4, 5, 3, 1, 4] [true, true, false, true, true, false] 4 2 4 = 3 / 4 ∧
      (6 : ℚ) / 10 < 3 / 4 ∧
      iterateWordSimilarity [4, 5, 3, 1, 4] [true, true, false, true, true, false] 4 6 5
        = some (3 / 5) ∧
      ¬ ((6 : ℚ) / 10 < 3 / 5) := by
  refine ⟨by decide, by decide, by decide!, by norm_num, by decide!, by norm_num⟩

/-- C18, amended: on every well-formed scanner input `iterateWordSimilarity`
returns a value of at least 0.6 exactly when its exhaustive variant does, and
a returned value above 0.6 is the similarity of a span that ends at a matched
position. -/
theorem iterateWordSimilarity_threshold_decision {t : List Int} {f : List Bool} {ulen1 : Int}
    {len1 len2 : Nat} (h : WellFormed t f ulen1 len1 len2) :
    ∃ r x, iterateWordSimilarity t f ulen1 len1 len2 = some r ∧
      iterateWordSimilarityExhaustive t f ulen1 len1 len2 = some x ∧
      (wordSimilarityThreshold ≤ r ↔ wordSimilarityThreshold ≤ x) ∧
      (wordSimilarityThreshold < r →
        ∃ l u, l ≤ u ∧ u < len2 ∧ isFound f (t.getD u 0) = true ∧
          spanSml t f ulen1 l u = r) := by
  obtain ⟨r, hr, hval, -⟩ := scan_spec true h
  obtain ⟨x, hx, -⟩ := scan_spec false h
  refine ⟨r, x, hr, hx, ?_, ?_⟩
  · rcases scanLoop_couple _ hr hx with e | ⟨h1, h2⟩
    · rw [e]
    · exact ⟨fun _ => h2, fun _ => h1⟩
  · intro hlt
    rcases hval with h0 | ⟨l, u, h1, h2, h3, h4⟩
    · rw [h0] at hlt
      exact absurd hlt (by unfold wordSimilarityThreshold; norm_num)
    · exact ⟨l, u, h1, h.1 ▸ h2, h3, h4.symm⟩

/-- C18, witness: the well-formed input `trg2indexes = [0,1,2]`,
`found = [true,true,true]`. -/
theorem iterateWordSimilarity_threshold_decision_witness :
    WellFormed [0, 1, 2] [true, true, true] 3 3 3 ∧
      ∃ r x, iterateWordSimilarity [0, 1, 2] [true, true, true] 3 3 3 = some r ∧
        iterateWordSimilarityExhaustive [0, 1, 2] [true, true, true] 3 3 3 = some x ∧
        (wordSimilarityThreshold ≤ r ↔ wordSimilarityThreshold ≤ x) ∧
        (wordSimilarityThreshold < r →
          ∃ l u, l ≤ u ∧ u < 3 ∧ isFound [true, true, true] ([0, 1, 2].getD u 0) = true ∧
            spanSml [0, 1, 2] [true, true, true] 3 l u = r) :=
  ⟨by decide, iterateWordSimilarity_threshold_decision (by decide)⟩

/-- C12: `generateTrgmOnly` agrees with the reference extraction:
`generateTrgmOnly("")` is empty and, for a non-empty `s`, `generateTrgmOnly(s)`
is the concatenation, over the words of the lowercased `s` split on the space
character, of the substrings `p[i..i+3]`, `i = 0 .. len(p)-3`, of the padded
word `p`; a word of `n` bytes contributes `n+2` trigrams, each of length 3. -/
theorem generateTrgmOnly_reference (s w : GoString) :
    generateTrgmOnly s = (if s = [] then [] else generateTrgmRef s) ∧
      makeTrigrams ([32, 32] ++ w ++ [32, 32]) = wordTrigramsRef w ∧
      (makeTrigrams ([32, 32] ++ w ++ [32, 32])).length = w.length + 2 ∧
      ∀ t ∈ makeTrigrams ([32, 32] ++ w ++ [32, 32]), t.length = 3 := by
  refine ⟨?_, makeTrigrams_padded w, ?_, ?_⟩
  · by_cases h : s = []
    · rw [if_pos h, h]; exact generateTrgmOnly_nil
    · rw [if_neg h]; exact generateTrgmOnly_eq_generateTrgmRef h
  · rw [makeTrigrams_padded]; exact length_wordTrigramsRef w
  · intro t ht
    rw [makeTrigrams_padded] at ht
    exact length_of_mem_wordTrigramsRef ht

/-- C11, counterexample: "a" and "b" are non-empty and space-free, and
`generateTrgmOnly("a  b")` has 8 trigrams while `generateTrgmOnly("a b")` has
6: the empty word between the two spaces emits trigrams. -/
theorem generateTrgmOnly_double_space_a_b :
    str "a" ≠ [] ∧ str "b" ≠ [] ∧ 32 ∉ str "a" ∧ 32 ∉ str "b" ∧
      str "a" ++ str "  " ++ str "b" = str "a  b" ∧ str "a" ++ str " " ++ str "b" = str "a b" ∧
      (generateTrgmOnly (str "a  b")).length = 8 ∧ (generateTrgmOnly (str "a b")).length = 6 ∧
      generateTrgmOnly (str "a  b") ≠ generateTrgmOnly (str "a b") := by
  refine ⟨by decide, by decide, by decide, by decide, by decide, by decide, by decide, by decide,
    by decide⟩

/-- C11, amended: for all non-empty space-free strings `a` and `b`, the empty
word between two consecutive spaces is padded to four spaces and emits exactly
two trigrams of three spaces: `generateTrgmOnly(a + "  " + b)` is
`generateTrgmOnly(a + " " + b)` with these two trigrams inserted between the
trigrams of `a` and those of `b`. -/
theorem generateTrgmOnly_double_space (a b : GoString) (ha : a ≠ []) (hb : b ≠ [])
    (hsa : 32 ∉ a) (hsb : 32 ∉ b) :
    generateTrgmOnly (a ++ [32, 32] ++ b) =
        generateTrgmOnly a ++ [[32, 32, 32], [32, 32, 32]] ++ generateTrgmOnly b ∧
      generateTrgmOnly (a ++ [32] ++ b) = generateTrgmOnly a ++ generateTrgmOnly b := by
  have hla := toLower_spaceFree hsa
  have hlb := toLower_spaceFree hsb
  have h2 : toLower (a ++ [32, 32] ++ b) = toLower a ++ 32 :: (32 :: toLower b) := by
    simp [toLower, toLowerByte]
  have h1 : toLower (a ++ [32] ++ b) = toLower a ++ 32 :: toLower b := by
    simp [toLower, toLowerByte]
  have hempty : makeTrigrams ([32, 32] ++ ([] : GoString) ++ [32, 32])
      = [[32, 32, 32], [32, 32, 32]] := by decide
  constructor
  · rw [generateTrgmOnly_eq_flatMap (by simp), h2, splitSpace_append_space _ hla]
    rw [show (32 :: toLower b : GoString) = [] ++ 32 :: toLower b from rfl,
      splitSpace_append_space _ (List.not_mem_nil _), splitSpace_spaceFree hlb,
      generateTrgmOnly_spaceFree ha hsa, generateTrgmOnly_spaceFree hb hsb]
    simp only [List.flatMap_cons, List.flatMap_nil, List.append_nil, hempty, List.append_assoc]
    rw [show makeTrigrams ([32, 32] ++ (([] : GoString) ++ [32, 32]))
      = [[32, 32, 32], [32, 32, 32]] from by decide]
  · rw [generateTrgmOnly_eq_flatMap (by simp), h1, splitSpace_append_space _ hla,
      splitSpace_spaceFree hlb, generateTrgmOnly_spaceFree ha hsa,
      generateTrgmOnly_spaceFree hb hsb]
    simp only [List.flatMap_cons, List.flatMap_nil, List.append_nil]

/-- C11, witness: `a` is "ab" and `b` is "c". -/
theorem generateTrgmOnly_double_space_witness :
    str "ab" ≠ [] ∧ str "c" ≠ [] ∧ 32 ∉ str "ab" ∧ 32 ∉ str "c" ∧
      generateTrgmOnly (str "ab" ++ [32, 32] ++ str "c") =
        generateTrgmOnly (str "ab") ++ [[32, 32, 32], [32, 32, 32]] ++ generateTrgmOnly (str "c") ∧
      generateTrgmOnly (str "ab" ++ [32] ++ str "c") =
        generateTrgmOnly (str "ab") ++ generateTrgmOnly (str "c") :=
  ⟨by decide, by decide, by decide, by decide,
    generateTrgmOnly_double_space (str "ab") (str "c") (by decide) (by decide) (by decide)
      (by decide)⟩

/-- C16: on every well-formed scanner input, `iterateWordSimilarity` with an
assertion `1 ≤ c ≤ ulen1 ∧ c ≤ u` before each call `calcSml(c, ulen1, u)`
(lines 152 and 159) runs without a failed assertion and returns the value of
`iterateWordSimilarity`; under the assertion the denominator `ulen1 + u - c`
is at least 1. -/
theorem iterateWordSimilarity_calcSml_args {t : List Int} {f : List Bool} {ulen1 : Int}
    {len1 len2 : Nat} (h : WellFormed t f ulen1 len1 len2) :
    (∃ r, iterateWordSimilarityChecked t f ulen1 len1 len2 = some r ∧
        iterateWordSimilarity t f ulen1 len1 len2 = some r) ∧
      ∀ c u : Int, ∀ q : ℚ, calcSmlChecked c ulen1 u = some q →
        1 ≤ c ∧ c ≤ ulen1 ∧ c ≤ u ∧ 1 ≤ ulen1 + u - c ∧ q = calcSml c ulen1 u := by
  refine ⟨?_, fun c u q hq => calcSmlChecked_some hq⟩
  obtain ⟨r, hr, -⟩ := scan_spec true h
  refine ⟨r, ?_, hr⟩
  have := scanLoopChecked_eq (c := true) h.2.1 h.idsOK h.2.2.2 len2 (i := 0)
    (by rw [h.1]; rfl) (scanInv_init t f ulen1 len1)
  unfold iterateWordSimilarityChecked
  unfold scan at hr
  rw [← hr]
  exact_mod_cast this

/-- C16, witness: the well-formed input `trg2indexes = [1,2,0,1]`,
`found = [false,true,true]`. -/
theorem iterateWordSimilarity_calcSml_args_witness :
    WellFormed [1, 2, 0, 1] [false, true, true] 2 3 4 ∧
      (∃ r, iterateWordSimilarityChecked [1, 2, 0, 1] [false, true, true] 2 3 4 = some r ∧
        iterateWordSimilarity [1, 2, 0, 1] [false, true, true] 2 3 4 = some r) ∧
      ∀ c u : Int, ∀ q : ℚ, calcSmlChecked c 2 u = some q →
        1 ≤ c ∧ c ≤ 2 ∧ c ≤ u ∧ 1 ≤ 2 + u - c ∧ q = calcSml c 2 u :=
  ⟨by decide, iterateWordSimilarity_calcSml_args (by decide)⟩

end GoTrgm
